import Mathlib

/-!
Verification of the code-block detector and escape codec of the
vscode-json-string-code-editor extension.

The development shallowly embeds the core logic of the repository:

* `unescapeString` models `CodeDetector.unescapeString` in
  `src/codeDetector.ts`, including the exact semantics of the JavaScript
  call `str.replace(/\\(.)/g, fn)`: the regex dot does not match line
  terminators, the matched text is only the backslash and the following
  character, and the `u`/`x` cases look up their digits with
  `str.indexOf(match)`, i.e. at the first occurrence of the two-character
  escape in the whole string.
* `escapeString` models `CodeEditorProvider.escapeString`, a chain of five
  global single-character replacements.
* `findCodeInObjectWithAST` models the JSONVisitor fold and the candidate
  containment scan of `CodeDetector.findCodeInObjectWithAST`; visit events
  are produced either by `visitModel` (a model of the tolerant
  jsonc-parser `visit` on raw text, comments and trailing commas allowed)
  or by `evVal` (the event stream of a document given as a tree, with
  token offsets matching its serialization `serVal`).
* `findCodeInPartialJson` models the regex fallback scanner.
* `jsonParse` models the strict ECMA `JSON.parse` used by
  `CodeEditorProvider.saveCodeToOriginal`, `updatePath` models
  `updateJsonValueByPath` (with the strict-mode TypeError throws of
  JavaScript property assignment on primitives), and `saveCodeToOriginal`
  models the try/catch write-back control flow.

Machine strings are lists of unicode scalars; the inputs treated here are
ASCII, so the UTF-16 code-unit subtleties of JavaScript strings
(lone surrogates from `String.fromCharCode`) do not arise.
-/

namespace VJson

/-- Character constants, named to keep the embedding readable: the double
quote, the backslash and the braces as they occur in JSON text. -/
def qc : Char := Char.ofNat 34

/-- Backslash character. -/
def bsl : Char := Char.ofNat 92

/-- Opening brace character. -/
def lbr : Char := Char.ofNat 123

/-- Closing brace character. -/
def rbr : Char := Char.ofNat 125

/-- Carriage return character. -/
def crc : Char := Char.ofNat 13

/-- JavaScript `String.fromCharCode`: the argument is taken modulo 2^16.
Values in the surrogate range are not valid unicode scalars; they are not
exercised by any input in this development. -/
def fromCharCode (n : Nat) : Char := Char.ofNat (n % 65536)

/-- Test for the character class `[0-9a-f]` with the `i` flag, as used by
the hex-escape guards of `unescapeString`. -/
def isHexDigit (c : Char) : Bool :=
  (decide (Char.ofNat 48 ≤ c) && decide (c ≤ Char.ofNat 57)) ||
  (decide (Char.ofNat 97 ≤ c) && decide (c ≤ Char.ofNat 102)) ||
  (decide (Char.ofNat 65 ≤ c) && decide (c ≤ Char.ofNat 70))

/-- Numeric value of one hex digit. -/
def hexDigitVal (c : Char) : Nat :=
  if Char.ofNat 48 ≤ c ∧ c ≤ Char.ofNat 57 then c.toNat - 48
  else if Char.ofNat 97 ≤ c ∧ c ≤ Char.ofNat 102 then c.toNat - 97 + 10
  else if Char.ofNat 65 ≤ c ∧ c ≤ Char.ofNat 70 then c.toNat - 65 + 10
  else 0

/-- Value of a hex digit string, as `Number.parseInt(s, 16)` computes it on
a valid input. -/
def hexValue (l : List Char) : Nat := l.foldl (fun a c => a * 16 + hexDigitVal c) 0

/-- Index of the first occurrence of the two-character pattern `a b` in a
list, modelling `String.prototype.indexOf` on a two-character needle. -/
def indexOfPair (a b : Char) : List Char → Option Nat
  | [] => none
  | [_] => none
  | x :: y :: rest =>
    if x = a ∧ y = b then some 0
    else
      match indexOfPair a b (y :: rest) with
      | some n => some (n + 1)
      | none => none

/-- Test for the JavaScript regex metacharacter dot without the `s` flag:
it matches every character except the four line terminators. -/
def jsDotMatches (c : Char) : Bool :=
  !(c = Char.ofNat 10 || c = crc || c = Char.ofNat 0x2028 || c = Char.ofNat 0x2029)

/-- Replacement produced by the callback of
`str.replace(/\\(.)/g, (match, char) => ...)` in
`CodeDetector.unescapeString`, for the escape character `c`. `orig` is the
whole subject string `str`: the `u` and `x` cases read their digits at
`str.indexOf(match) + 2`, the position after the FIRST occurrence of the
two-character escape in `str`, exactly as the source does. The octal case
sees `match.substr(1)`, which is always the single digit, so its guard
`/^[0-7]{1,3}$/` always passes. -/
def escReplacement (orig : List Char) (c : Char) : List Char :=
  if c = qc then [qc]
  else if c = bsl then [bsl]
  else if c = Char.ofNat 47 then [Char.ofNat 47]
  else if c = Char.ofNat 98 then [Char.ofNat 8]
  else if c = Char.ofNat 102 then [Char.ofNat 12]
  else if c = Char.ofNat 110 then [Char.ofNat 10]
  else if c = Char.ofNat 114 then [crc]
  else if c = Char.ofNat 116 then [Char.ofNat 9]
  else if c = Char.ofNat 117 then
    let start := (match indexOfPair bsl (Char.ofNat 117) orig with
      | some i => i + 2
      | none => 1)
    let nextFour := (orig.drop start).take 4
    if nextFour.length = 4 ∧ nextFour.all isHexDigit then [fromCharCode (hexValue nextFour)]
    else [c]
  else if c = Char.ofNat 120 then
    let start := (match indexOfPair bsl (Char.ofNat 120) orig with
      | some i => i + 2
      | none => 1)
    let nextTwo := (orig.drop start).take 2
    if nextTwo.length = 2 ∧ nextTwo.all isHexDigit then [fromCharCode (hexValue nextTwo)]
    else [c]
  else if c = Char.ofNat 48 ∨ c = Char.ofNat 49 ∨ c = Char.ofNat 50 ∨ c = Char.ofNat 51 ∨
          c = Char.ofNat 52 ∨ c = Char.ofNat 53 ∨ c = Char.ofNat 54 ∨ c = Char.ofNat 55 then
    [Char.ofNat (c.toNat - 48)]
  else [c]

/-- Scan of `str.replace(/\\(.)/g, fn)`: a match is a backslash followed by
a character the regex dot accepts; the replacement substitutes only those
two characters and scanning resumes after them. A backslash whose follower
the dot rejects, or a trailing lone backslash, is copied unchanged. -/
def unescapeGo (orig : List Char) : List Char → List Char
  | [] => []
  | [c] => [c]
  | c1 :: c2 :: rest =>
    if c1 = bsl ∧ jsDotMatches c2 then escReplacement orig c2 ++ unescapeGo orig rest
    else c1 :: unescapeGo orig (c2 :: rest)

/-- Model of `CodeDetector.unescapeString` over character lists. -/
def unescapeString (s : List Char) : List Char := unescapeGo s s

/-- String-level wrapper of `unescapeString`. -/
def unescapeStr (s : String) : String := ⟨unescapeString s.data⟩

/-- One global single-character replacement, modelling
`str.replace(/c/g, r)` for a literal character `c`. -/
def replaceAllChar (t : Char) (r : List Char) : List Char → List Char
  | [] => []
  | c :: cs => (if c = t then r else [c]) ++ replaceAllChar t r cs

/-- Model of `CodeEditorProvider.escapeString`: the source chains five
global replacements, backslash first, then double quote, newline, carriage
return and tab. -/
def escapeString (l : List Char) : List Char :=
  replaceAllChar (Char.ofNat 9) [bsl, Char.ofNat 116]
    (replaceAllChar crc [bsl, Char.ofNat 114]
      (replaceAllChar (Char.ofNat 10) [bsl, Char.ofNat 110]
        (replaceAllChar qc [bsl, qc]
          (replaceAllChar bsl [bsl, bsl] l))))

/-- String-level wrapper of `escapeString`. -/
def escapeStr (s : String) : String := ⟨escapeString s.data⟩

/-- Per-character description of the combined effect of the five
replacement passes of `escapeString`. -/
def escChar (c : Char) : List Char :=
  if c = bsl then [bsl, bsl]
  else if c = qc then [bsl, qc]
  else if c = Char.ofNat 10 then [bsl, Char.ofNat 110]
  else if c = crc then [bsl, Char.ofNat 114]
  else if c = Char.ofNat 9 then [bsl, Char.ofNat 116]
  else [c]

theorem replaceAllChar_append (t : Char) (r : List Char) (l1 l2 : List Char) :
    replaceAllChar t r (l1 ++ l2) = replaceAllChar t r l1 ++ replaceAllChar t r l2 := by
  induction l1 with
  | nil => rfl
  | cons c cs ih => simp [replaceAllChar, ih]

theorem escapeString_cons (c : Char) (cs : List Char) :
    escapeString (c :: cs) = escChar c ++ escapeString cs := by
  have h : ∀ t r l, replaceAllChar t r (c :: l) =
      (if c = t then r else [c]) ++ replaceAllChar t r l := fun _ _ _ => rfl
  by_cases h1 : c = bsl
  · subst h1; simp [escapeString, escChar, replaceAllChar, replaceAllChar_append, bsl, qc, crc]
  · by_cases h2 : c = qc
    · subst h2; simp [escapeString, escChar, replaceAllChar, replaceAllChar_append, bsl, qc, crc]
    · by_cases h3 : c = Char.ofNat 10
      · subst h3
        simp [escapeString, escChar, replaceAllChar, replaceAllChar_append, bsl, qc, crc]
      · by_cases h4 : c = crc
        · subst h4
          simp [escapeString, escChar, replaceAllChar, replaceAllChar_append, bsl, qc, crc]
        · by_cases h5 : c = Char.ofNat 9
          · subst h5
            simp [escapeString, escChar, replaceAllChar, replaceAllChar_append, bsl, qc, crc]
          · simp [escapeString, escChar, replaceAllChar, replaceAllChar_append,
              h1, h2, h3, h4, h5]

theorem unescapeGo_cons_ne (orig : List Char) (c : Char) (hc : ¬c = bsl) (l : List Char) :
    unescapeGo orig (c :: l) = c :: unescapeGo orig l := by
  cases l with
  | nil => rfl
  | cons d tl => simp [unescapeGo, hc]

theorem unescape_escapeString (orig l : List Char) :
    unescapeGo orig (escapeString l) = l := by
  induction l with
  | nil => rfl
  | cons c cs ih =>
    rw [escapeString_cons]
    by_cases h1 : c = bsl
    · subst h1
      simp only [escChar, if_pos rfl, List.cons_append, List.nil_append]
      simp [unescapeGo, escReplacement, jsDotMatches, bsl, qc, crc, ih]
    · by_cases h2 : c = qc
      · subst h2
        simp only [escChar, if_neg (by decide : ¬qc = bsl), if_pos rfl,
          List.cons_append, List.nil_append]
        simp [unescapeGo, escReplacement, jsDotMatches, bsl, qc, crc, ih]
      · by_cases h3 : c = Char.ofNat 10
        · subst h3
          simp only [escChar, if_neg (by decide : ¬Char.ofNat 10 = bsl),
            if_neg (by decide : ¬Char.ofNat 10 = qc), if_pos rfl,
            List.cons_append, List.nil_append]
          simp [unescapeGo, escReplacement, jsDotMatches, bsl, qc, crc, ih]
        · by_cases h4 : c = crc
          · subst h4
            simp only [escChar, if_neg (by decide : ¬crc = bsl),
              if_neg (by decide : ¬crc = qc), if_neg (by decide : ¬crc = Char.ofNat 10),
              if_pos rfl, List.cons_append, List.nil_append]
            simp [unescapeGo, escReplacement, jsDotMatches, bsl, qc, crc, ih]
          · by_cases h5 : c = Char.ofNat 9
            · subst h5
              simp only [escChar, if_neg (by decide : ¬Char.ofNat 9 = bsl),
                if_neg (by decide : ¬Char.ofNat 9 = qc),
                if_neg (by decide : ¬Char.ofNat 9 = Char.ofNat 10),
                if_neg (by decide : ¬Char.ofNat 9 = crc), if_pos rfl,
                List.cons_append, List.nil_append]
              simp [unescapeGo, escReplacement, jsDotMatches, bsl, qc, crc, ih]
            · simp only [escChar, if_neg h1, if_neg h2, if_neg h3, if_neg h4, if_neg h5,
                List.cons_append, List.nil_append]
              rw [unescapeGo_cons_ne _ _ h1, ih]

/-- C5. Round-trip law of the escape/unescape pair: unescaping an escaped
string restores it. The law in fact holds for every string, in particular
for every string free of literal backslashes needing double-escaping. -/
theorem c5_roundtrip_escape_unescape (x : String) : unescapeStr (escapeStr x) = x := by
  show (⟨unescapeGo (escapeString x.data) (escapeString x.data)⟩ : String) = x
  rw [unescape_escapeString]

/-- C3. Evaluation of `unescapeString` at the failing inputs of the
numeric-escape claim: the escape `A` does not yield the single code
unit `A` — the replacement only consumes the two characters `\u`, so the
four hex digits stay in the output; a `\u` whose following four characters
are not valid hex drops the backslash instead of passing through
unchanged; and `\101` yields the character of the single octal digit `1`
followed by the remaining digits, not the character with octal code 101. -/
theorem c3_numeric_escapes_not_consumed :
    unescapeStr "\\u0041" = "A0041" ∧ unescapeStr "\\u0041" ≠ "A" ∧
    unescapeStr "\\uZZZZ" = "uZZZZ" ∧ unescapeStr "\\uZZZZ" ≠ "\\uZZZZ" ∧
    unescapeStr "\\101" = ⟨[Char.ofNat 1, Char.ofNat 48, Char.ofNat 49]⟩ ∧
    unescapeStr "\\x41" = "A41" := by
  refine ⟨by decide, by decide, by decide, by decide, by decide, by decide⟩

/-- C4 counterexample. The catch-all claim quantifies over every character
with no defined escape meaning, but the regex dot of `/\\(.)/g` does not
match a line terminator: for the newline character (which is not one of
the defined escape characters) the sequence backslash-newline passes
through unchanged instead of dropping the backslash. -/
theorem c4_counterexample_line_terminator :
    unescapeString [bsl, Char.ofNat 10] = [bsl, Char.ofNat 10] ∧
    unescapeString [bsl, Char.ofNat 10] ≠ [Char.ofNat 10] ∧
    (Char.ofNat 10) ∉ ([qc, bsl, Char.ofNat 47, Char.ofNat 98, Char.ofNat 102,
      Char.ofNat 110, Char.ofNat 114, Char.ofNat 116, Char.ofNat 117, Char.ofNat 120,
      Char.ofNat 48, Char.ofNat 49, Char.ofNat 50, Char.ofNat 51, Char.ofNat 52,
      Char.ofNat 53, Char.ofNat 54, Char.ofNat 55] : List Char) := by
  refine ⟨by decide, by decide, by decide⟩

/-- C4 as amended. `unescapeString` is total by construction, and for
every character `c` that has no defined escape meaning AND is not a line
terminator, the two-character sequence backslash-`c` is mapped to `c`
alone, the backslash dropped; in particular the input `\d+` unescapes to
`d+`. -/
theorem c4_catchall_amended :
    (∀ c : Char,
      c ∉ ([qc, bsl, Char.ofNat 47, Char.ofNat 98, Char.ofNat 102,
        Char.ofNat 110, Char.ofNat 114, Char.ofNat 116, Char.ofNat 117, Char.ofNat 120,
        Char.ofNat 48, Char.ofNat 49, Char.ofNat 50, Char.ofNat 51, Char.ofNat 52,
        Char.ofNat 53, Char.ofNat 54, Char.ofNat 55] : List Char) →
      jsDotMatches c = true →
      unescapeString [bsl, c] = [c]) ∧
    unescapeStr "\\d+" = "d+" := by
  constructor
  · intro c hmem hdot
    simp only [List.mem_cons, List.not_mem_nil, or_false, not_or] at hmem
    obtain ⟨n1, n2, n3, n4, n5, n6, n7, n8, n9, n10, n11, n12, n13, n14, n15, n16, n17, n18⟩ :=
      hmem
    show unescapeGo [bsl, c] [bsl, c] = [c]
    rw [show ([bsl, c] : List Char) = bsl :: c :: [] from rfl]
    simp only [unescapeGo, hdot, and_true, if_pos rfl]
    simp [escReplacement, n1, n2, n3, n4, n5, n6, n7, n8, n9, n10, n11, n12, n13, n14,
      n15, n16, n17, n18]
  · decide

/-- C4 witness. The amended catch-all rule applied at the concrete
character `d`: backslash-`d` unescapes to `d`. -/
theorem c4_catchall_amended_witness : unescapeString [bsl, Char.ofNat 100] = [Char.ofNat 100] :=
  c4_catchall_amended.1 (Char.ofNat 100) (by decide) (by decide)

/-! ### The detector output record and the fallback scanner -/

/-- Model of the `CodeBlockInfo` record of `src/codeDetector.ts`. The field
`stop` models the source field named `end` (a Lean keyword); the derived
`range` field and the post-detection optional `language` field carry no
information beyond `start`/`stop` and are omitted. -/
structure CodeBlockInfo where
  code : List Char
  start : Nat
  stop : Nat
  fieldName : List Char
  keyPath : List Char
deriving DecidableEq, Repr

/-- Match attempt of the body of the regex `"(?:[^"\\]|\\.)*"` directly
after an opening quote: `cs` is the text after the quote and `pos` the
absolute position after the quote. On success it returns the matched
content (source form), the position one past the closing quote, and the
remaining text. The alternation accepts an unescaped non-quote
non-backslash character, or a backslash followed by a character the regex
dot matches; greedy scanning is exact here because a closing-quote
position reachable by backtracking is always a position the greedy scan
already inspected. -/
def tryStringFrom : List Char → Nat → Option (List Char × Nat × List Char)
  | [], _ => none
  | [c], pos => if c = qc then some ([], pos + 1, []) else none
  | c :: d :: rest, pos =>
    if c = qc then some ([], pos + 1, d :: rest)
    else if c = bsl then
      if jsDotMatches d then
        match tryStringFrom rest (pos + 2) with
        | some (content, e, r) => some (c :: d :: content, e, r)
        | none => none
      else none
    else
      match tryStringFrom (d :: rest) (pos + 1) with
      | some (content, e, r) => some (c :: content, e, r)
      | none => none

/-- Global scan of `stringRegex.exec` in `findCodeInPartialJson`: all
matches of the string regex, left to right, as triples of start position,
end position (one past the closing quote) and content between the quotes.
The fuel only bounds the number of scan steps; `text.length + 1` is always
enough because every step consumes at least one character. -/
def scanStringsGo : Nat → List Char → Nat → List (Nat × Nat × List Char)
  | 0, _, _ => []
  | _ + 1, [], _ => []
  | fuel + 1, c :: rest, pos =>
    if c = qc then
      match tryStringFrom rest (pos + 1) with
      | some (content, e, rest2) => (pos, e, content) :: scanStringsGo fuel rest2 e
      | none => scanStringsGo fuel rest (pos + 1)
    else scanStringsGo fuel rest (pos + 1)

/-- Test for the JavaScript regex class `\s` restricted to the whitespace
characters that can occur in the documents treated here. -/
def jsSpace (c : Char) : Bool :=
  c = Char.ofNat 32 || c = Char.ofNat 9 || c = Char.ofNat 10 || c = crc ||
  c = Char.ofNat 11 || c = Char.ofNat 12 || c = Char.ofNat 0xA0 || c = Char.ofNat 0xFEFF

/-- Suffix test for the part `\s*:\s*$` of the field-name regex, applied
to the text after the closing quote of the candidate name. -/
def fieldTail (l : List Char) : Bool :=
  match l.dropWhile jsSpace with
  | c :: r => if c = Char.ofNat 58 then (r.dropWhile jsSpace).isEmpty else false
  | [] => false

/-- Split at the first quote, for the group `([^"]+)` of the field-name
regex: returns the characters before the first quote and the rest after
it, or nothing when no quote follows. -/
def takeName : List Char → Option (List Char × List Char)
  | [] => none
  | c :: rest =>
    if c = qc then some ([], rest)
    else
      match takeName rest with
      | some (n, r) => some (c :: n, r)
      | none => none

/-- Match attempt of the anchored regex `"([^"]+)"\s*:\s*$` at one start
position. -/
def fieldAt : List Char → Option (List Char)
  | [] => none
  | c :: rest =>
    if c = qc then
      match takeName rest with
      | some (name, r2) => if name ≠ [] ∧ fieldTail r2 then some name else none
      | none => none
    else none

/-- Leftmost match of the field-name regex on the text before a string
match, modelling `beforeString.match(/"([^"]+)"\s*:\s*$/)`. -/
def findFieldName : List Char → Option (List Char)
  | [] => none
  | c :: rest =>
    match fieldAt (c :: rest) with
    | some n => some n
    | none => findFieldName rest

/-- Containment-and-field-name loop over the regex matches, modelling the
`while` loop of `findCodeInPartialJson`: the first match whose inclusive
span contains the offset and whose preceding text ends in a field-name
pattern produces the result (the `isCodeField` filter of the source always
returns true); otherwise scanning continues. -/
def findPartialGo (text : List Char) (offset : Nat) :
    List (Nat × Nat × List Char) → Option CodeBlockInfo
  | [] => none
  | (ms, me, content) :: rest =>
    if ms ≤ offset ∧ offset ≤ me then
      match findFieldName (text.take ms) with
      | some name => some ⟨unescapeString content, ms, me, name, name⟩
      | none => findPartialGo text offset rest
    else findPartialGo text offset rest

/-- Model of `CodeDetector.findCodeInPartialJson`. -/
def findCodeInPartialJson (text : List Char) (offset : Nat) : Option CodeBlockInfo :=
  findPartialGo text offset (scanStringsGo (text.length + 1) text 0)

theorem tryStringFrom_spec : ∀ (cs : List Char) (pos : Nat) (content : List Char) (e : Nat)
    (rest : List Char), tryStringFrom cs pos = some (content, e, rest) →
    cs = content ++ qc :: rest ∧ e = pos + content.length + 1
  | [], _, _, _, _, h => by simp [tryStringFrom] at h
  | [c], pos, content, e, rest, h => by
    by_cases hc : c = qc
    · rw [tryStringFrom, if_pos hc] at h
      simp only [Option.some.injEq, Prod.mk.injEq] at h
      obtain ⟨rfl, rfl, rfl⟩ := h
      simp [hc]
    · simp [tryStringFrom, hc] at h
  | c :: d :: rest0, pos, content, e, rest, h => by
    by_cases hc : c = qc
    · rw [tryStringFrom, if_pos hc] at h
      simp only [Option.some.injEq, Prod.mk.injEq] at h
      obtain ⟨rfl, rfl, rfl⟩ := h
      simp [hc]
    · by_cases hb : c = bsl
      · rw [tryStringFrom, if_neg hc, if_pos hb] at h
        by_cases hdot : jsDotMatches d
        · rw [if_pos hdot] at h
          cases hrec : tryStringFrom rest0 (pos + 2) with
          | some t =>
            obtain ⟨content2, e2, r2⟩ := t
            rw [hrec] at h
            simp only [Option.some.injEq, Prod.mk.injEq] at h
            obtain ⟨rfl, rfl, rfl⟩ := h
            obtain ⟨heq, hlen⟩ := tryStringFrom_spec rest0 (pos + 2) content2 e2 r2 hrec
            constructor
            · simp [heq]
            · simp only [List.length_cons]; omega
          | none => rw [hrec] at h; simp at h
        · simp [hdot] at h
      · rw [tryStringFrom, if_neg hc, if_neg hb] at h
        cases hrec : tryStringFrom (d :: rest0) (pos + 1) with
        | some t =>
          obtain ⟨content2, e2, r2⟩ := t
          rw [hrec] at h
          simp only [Option.some.injEq, Prod.mk.injEq] at h
          obtain ⟨rfl, rfl, rfl⟩ := h
          obtain ⟨heq, hlen⟩ := tryStringFrom_spec (d :: rest0) (pos + 1) content2 e2 r2 hrec
          constructor
          · simp [heq]
          · simp only [List.length_cons]; omega
        | none => rw [hrec] at h; simp at h

theorem drop_tail_of_drop_cons {text : List Char} {pos : Nat} {c : Char} {rest : List Char}
    (h : text.drop pos = c :: rest) : text.drop (pos + 1) = rest := by
  have h2 : text.drop (pos + 1) = (text.drop pos).drop 1 := by
    rw [List.drop_drop]
  rw [h2, h]
  rfl

theorem scanStrings_good (text : List Char) : ∀ (fuel : Nat) (cs : List Char) (pos : Nat),
    cs = text.drop pos →
    ∀ ms me content, (ms, me, content) ∈ scanStringsGo fuel cs pos →
      text.drop ms = qc :: (content ++ qc :: text.drop me) ∧
      me = ms + content.length + 2 := by
  intro fuel
  induction fuel with
  | zero => intro cs pos _ ms me content hmem; simp [scanStringsGo] at hmem
  | succ fuel ih =>
    intro cs pos hcs ms me content hmem
    cases cs with
    | nil => simp [scanStringsGo] at hmem
    | cons c rest =>
      by_cases hc : c = qc
      · rw [scanStringsGo, if_pos hc] at hmem
        cases hrec : tryStringFrom rest (pos + 1) with
        | some t =>
          obtain ⟨content2, e2, rest2⟩ := t
          rw [hrec] at hmem
          simp only [List.mem_cons, Prod.mk.injEq] at hmem
          obtain ⟨hspec, hlen⟩ := tryStringFrom_spec rest (pos + 1) content2 e2 rest2 hrec
          have hcq : text.drop pos = qc :: rest := by rw [← hcs, hc]
          have hdropped : text.drop (pos + 1) = rest := drop_tail_of_drop_cons hcq
          have hrest2 : text.drop e2 = rest2 := by
            have h1 : text.drop e2 = (text.drop (pos + 1)).drop (content2.length + 1) := by
              rw [List.drop_drop]
              congr 1

            rw [h1, hdropped, hspec,
              show content2 ++ qc :: rest2 = (content2 ++ [qc]) ++ rest2 by simp,
              show content2.length + 1 = (content2 ++ [qc]).length by simp,
              List.drop_left]
          rcases hmem with ⟨rfl, rfl, rfl⟩ | hmem
          · refine ⟨?_, by omega⟩
            rw [hcq, hspec, hrest2]
          · exact ih rest2 e2 hrest2.symm ms me content hmem
        | none =>
          rw [hrec] at hmem
          have hcq : text.drop pos = qc :: rest := by rw [← hcs, hc]
          exact ih rest (pos + 1) (drop_tail_of_drop_cons hcq).symm ms me content hmem
      · rw [scanStringsGo, if_neg hc] at hmem
        have hcq : text.drop pos = c :: rest := hcs.symm
        exact ih rest (pos + 1) (drop_tail_of_drop_cons hcq).symm ms me content hmem

theorem findPartialGo_keyPath (text : List Char) (offset : Nat) :
    ∀ (L : List (Nat × Nat × List Char)) (info : CodeBlockInfo),
      findPartialGo text offset L = some info → info.keyPath = info.fieldName := by
  intro L
  induction L with
  | nil => intro info h; simp [findPartialGo] at h
  | cons m rest ih =>
    intro info h
    obtain ⟨ms, me, content⟩ := m
    simp only [findPartialGo] at h
    by_cases hin : ms ≤ offset ∧ offset ≤ me
    · rw [if_pos hin] at h
      match hf : findFieldName (text.take ms) with
      | some name =>
        rw [hf] at h
        simp only [Option.some.injEq] at h
        subst h
        rfl
      | none => rw [hf] at h; exact ih info h
    · rw [if_neg hin] at h
      exact ih info h

theorem findPartialGo_shape (text : List Char) (offset : Nat) :
    ∀ (L : List (Nat × Nat × List Char)) (info : CodeBlockInfo),
      findPartialGo text offset L = some info →
      ∃ content, (info.start, info.stop, content) ∈ L ∧
        info.code = unescapeString content ∧
        info.start ≤ offset ∧ offset ≤ info.stop := by
  intro L
  induction L with
  | nil => intro info h; simp [findPartialGo] at h
  | cons m rest ih =>
    intro info h
    obtain ⟨ms, me, content⟩ := m
    simp only [findPartialGo] at h
    by_cases hin : ms ≤ offset ∧ offset ≤ me
    · rw [if_pos hin] at h
      match hf : findFieldName (text.take ms) with
      | some name =>
        rw [hf] at h
        simp only [Option.some.injEq] at h
        subst h
        exact ⟨content, by simp, rfl, hin.1, hin.2⟩
      | none =>
        rw [hf] at h
        obtain ⟨content2, hmem, hrest⟩ := ih info h
        exact ⟨content2, by simp [hmem], hrest⟩
    · rw [if_neg hin] at h
      obtain ⟨content2, hmem, hrest⟩ := ih info h
      exact ⟨content2, by simp [hmem], hrest⟩

/-- Document of the malformed-input example of the spec: a closing brace
is missing, and the braces inside the string belong to the code text. -/
def adaptorText : String :=
  "\x7b\"adaptor\": \"function test()\x7b return 1; \x7d\""

/-- C7. Fallback scanner behaviour: every result the fallback scanner
returns carries a `keyPath` equal to the bare `fieldName` (no nesting
reconstruction), and on the JSON document missing its closing brace that
contains the `adaptor` code string, scanning at an offset inside the
string returns a non-null result with field name `adaptor`; at an offset
inside no string (position 0, the opening brace) it returns null, and on a
document whose only string is preceded by no field name it returns null. -/
theorem c7_fallback_scanner :
    (∀ (text : List Char) (offset : Nat) (info : CodeBlockInfo),
      findCodeInPartialJson text offset = some info → info.keyPath = info.fieldName) ∧
    ((findCodeInPartialJson adaptorText.data 20).map (fun i => (i.fieldName, i.keyPath)) =
      some ("adaptor".data, "adaptor".data)) ∧
    findCodeInPartialJson adaptorText.data 0 = none ∧
    findCodeInPartialJson "\"x\"".data 1 = none := by
  refine ⟨?_, by decide, by decide, by decide⟩
  intro text offset info h
  exact findPartialGo_keyPath text offset _ info h

/-- Result record of the fallback scanner on the malformed example
document, at an offset inside the code string. -/
def adaptorInfo : CodeBlockInfo :=
  ⟨unescapeString "function test()\x7b return 1; \x7d".data, 12, 42,
    "adaptor".data, "adaptor".data⟩

/-- C7 witness. The general bare-field-name law applied at the concrete
malformed document and offset of the spec example. -/
theorem c7_fallback_scanner_witness : adaptorInfo.keyPath = adaptorInfo.fieldName :=
  c7_fallback_scanner.1 adaptorText.data 20 adaptorInfo (by decide)

theorem take_content_quote (content tail : List Char) :
    (content ++ qc :: tail).take (content.length + 1) = content ++ [qc] := by
  induction content with
  | nil => rfl
  | cons c cs ih => simp [List.take_succ_cons, ih]

/-- C10. Shape of a fallback-scanner result: the returned span covers the
whole quoted literal, quotes included — the character at `start` is the
opening quote, the span is the content length plus 2, the slice of the
document between `start` and `stop` is the quoted content, `code` is the
content unescaped, and the containment test that admitted the offset is
inclusive on both ends. -/
theorem c10_fallback_span_shape :
    ∀ (text : List Char) (offset : Nat) (info : CodeBlockInfo),
      findCodeInPartialJson text offset = some info →
      ∃ content,
        (text.drop info.start).take (info.stop - info.start) = qc :: (content ++ [qc]) ∧
        info.stop = info.start + content.length + 2 ∧
        info.code = unescapeString content ∧
        info.start ≤ offset ∧ offset ≤ info.stop := by
  intro text offset info h
  obtain ⟨content, hmem, hcode, h1, h2⟩ := findPartialGo_shape text offset _ info h
  obtain ⟨hdrop, hlen⟩ := scanStrings_good text (text.length + 1) text 0 (by simp)
    info.start info.stop content hmem
  refine ⟨content, ?_, hlen, hcode, h1, h2⟩
  rw [hdrop]
  have hspan : info.stop - info.start = content.length + 2 := by omega
  rw [hspan]
  show qc :: ((content ++ qc :: text.drop info.stop).take (content.length + 1)) =
    qc :: (content ++ [qc])
  rw [take_content_quote]

/-! ### The structural detector: visitor fold over jsonc visit events -/

/-- Events delivered by the jsonc-parser `visit` walk, restricted to the
callbacks the detector visitor implements (separator callbacks carry no
handler in the source and are omitted). A string literal event carries the
parsed value together with the token offset and token length, which in
jsonc-parser cover the literal including both quotes; non-string literals
(numbers, booleans, null) are `literalOther` since the visitor`s
typeof-string guard ignores them. -/
inductive VisitEvent where
  | objectBegin
  | objectProperty (name : List Char)
  | objectEnd
  | arrayBegin
  | arrayEnd
  | literalString (value : List Char) (offset : Nat) (length : Nat)
  | literalOther
deriving DecidableEq, Repr

/-- Entry of the `pendingDetections` array of `findCodeInObjectWithAST`. -/
structure Pending where
  fieldName : List Char
  value : List Char
  valueOffset : Nat
  valueLength : Nat
  fullPath : List Char
deriving DecidableEq, Repr

/-- Dot-join of the path stack, modelling `pathStack.join(".")`. -/
def joinDots : List (List Char) → List Char
  | [] => []
  | [s] => s
  | s :: t :: rest => s ++ Char.ofNat 46 :: joinDots (t :: rest)

/-- Test of `segment.startsWith("[")`. -/
def startsWithBracket (seg : List Char) : Bool :=
  match seg with
  | c :: _ => c = Char.ofNat 91
  | [] => false

/-- Loop of the `onArrayEnd` callback: pop path-stack entries from the top
while they start with an opening bracket. -/
def dropTrailingBrackets (st : List (List Char)) : List (List Char) :=
  (st.reverse.dropWhile startsWithBracket).reverse

/-- Mutable state of the visitor closure in `findCodeInObjectWithAST`:
the `currentProperty` variable, the `pathStack` array and the
`pendingDetections` array. -/
structure VisitState where
  currentProperty : Option (List Char)
  pathStack : List (List Char)
  pending : List Pending
deriving DecidableEq, Repr

/-- Transition of the visitor on one event, transcribing the callbacks of
the source: `onObjectProperty` records the property and pushes it;
`onObjectEnd` pops one entry (when any) and clears the property;
`onArrayEnd` strips bracket-prefixed entries; `onLiteralValue` records a
candidate when the value is a string and `currentProperty` is truthy (a
JavaScript test, hence the nonempty-name guard); the remaining callbacks
do nothing. -/
def visitStep (s : VisitState) : VisitEvent → VisitState
  | .objectBegin => s
  | .objectProperty name =>
    { s with currentProperty := some name, pathStack := s.pathStack ++ [name] }
  | .objectEnd => { s with pathStack := s.pathStack.dropLast, currentProperty := none }
  | .arrayBegin => s
  | .arrayEnd => { s with pathStack := dropTrailingBrackets s.pathStack }
  | .literalString v off len =>
    match s.currentProperty with
    | some p =>
      if p ≠ [] then
        { s with pending := s.pending ++ [⟨p, v, off, len, joinDots s.pathStack⟩] }
      else s
    | none => s
  | .literalOther => s

/-- Fold of the visitor over the event stream, modelling `visit(text,
visitor)`. -/
def runVisit (evs : List VisitEvent) (s : VisitState) : VisitState := evs.foldl visitStep s

/-- Initial visitor state. -/
def initState : VisitState := ⟨none, [], []⟩

/-- Result record built from a containing candidate, as the containment
loop of the source builds it: the code is the candidate value unescaped a
second time by `unescapeString`, and the span is the candidate token
span. -/
def mkInfo (p : Pending) : CodeBlockInfo :=
  ⟨unescapeString p.value, p.valueOffset, p.valueOffset + p.valueLength, p.fieldName, p.fullPath⟩

/-- Containment loop over the recorded candidates in visitation order: the
first candidate whose inclusive span contains the offset wins. -/
def scanPending (offset : Nat) : List Pending → Option CodeBlockInfo
  | [] => none
  | p :: rest =>
    if p.valueOffset ≤ offset ∧ offset ≤ p.valueOffset + p.valueLength then some (mkInfo p)
    else scanPending offset rest

/-- Model of `CodeDetector.findCodeInObjectWithAST`, over an explicit
event stream. -/
def findCodeInObjectWithAST (evs : List VisitEvent) (offset : Nat) : Option CodeBlockInfo :=
  scanPending offset (runVisit evs initState).pending

/-! ### A model of the tolerant jsonc-parser visit on raw text

The functions below produce the visit event stream for a document text,
with trailing commas and comments allowed, as `detectCodeAtPosition`
configures `parseTree`. They return `none` when parsing fails; the error
recovery of the real jsonc-parser, which can still build a tree for some
malformed documents, is not modelled — every concrete document fed to
`visitModel` in this development parses without recovery. -/

/-- Whitespace characters of the jsonc scanner exercised here. -/
def isJsoncWs (c : Char) : Bool :=
  c = Char.ofNat 32 || c = Char.ofNat 9 || c = Char.ofNat 10 || c = crc ||
  c = Char.ofNat 11 || c = Char.ofNat 12 || c = Char.ofNat 0xA0

/-- Skip to the next line break, for line comments. -/
def dropToLineBreak : List Char → Nat → (List Char × Nat)
  | [], pos => ([], pos)
  | c :: rest, pos =>
    if c = Char.ofNat 10 ∨ c = crc then (c :: rest, pos)
    else dropToLineBreak rest (pos + 1)

/-- Skip past the closing star-slash of a block comment. -/
def dropToStarSlash : List Char → Nat → Option (List Char × Nat)
  | [], _ => none
  | [_], _ => none
  | c :: d :: rest, pos =>
    if c = Char.ofNat 42 ∧ d = Char.ofNat 47 then some (rest, pos + 2)
    else dropToStarSlash (d :: rest) (pos + 1)

/-- Skip whitespace and comments (both kinds allowed, matching
`disallowComments: false`). -/
def skipTrivia : Nat → List Char → Nat → Option (List Char × Nat)
  | 0, _, _ => none
  | _ + 1, [], pos => some ([], pos)
  | fuel + 1, c :: rest, pos =>
    if isJsoncWs c then skipTrivia fuel rest (pos + 1)
    else if c = Char.ofNat 47 then
      match rest with
      | [] => some (c :: rest, pos)
      | d :: rest2 =>
        if d = Char.ofNat 47 then
          let lb := dropToLineBreak rest2 (pos + 2)
          skipTrivia fuel lb.1 lb.2
        else if d = Char.ofNat 42 then
          match dropToStarSlash rest2 (pos + 2) with
          | some (r2, p2) => skipTrivia fuel r2 p2
          | none => none
        else some (c :: rest, pos)
    else some (c :: rest, pos)

/-- String token body after the opening quote: returns the parsed value,
the number of characters consumed (closing quote included) and the rest of
the input. Escapes are the JSON ones the jsonc scanner decodes; an invalid
escape or an unterminated string makes the model fail. -/
def scanStringBody : List Char → Option (List Char × Nat × List Char)
  | [] => none
  | c :: rest =>
    if c = qc then some ([], 1, rest)
    else if c = bsl then
      match rest with
      | [] => none
      | d :: rest2 =>
        if d = qc ∨ d = bsl ∨ d = Char.ofNat 47 then
          match scanStringBody rest2 with
          | some (v, n, r) => some (d :: v, n + 2, r)
          | none => none
        else if d = Char.ofNat 98 then
          match scanStringBody rest2 with
          | some (v, n, r) => some (Char.ofNat 8 :: v, n + 2, r)
          | none => none
        else if d = Char.ofNat 102 then
          match scanStringBody rest2 with
          | some (v, n, r) => some (Char.ofNat 12 :: v, n + 2, r)
          | none => none
        else if d = Char.ofNat 110 then
          match scanStringBody rest2 with
          | some (v, n, r) => some (Char.ofNat 10 :: v, n + 2, r)
          | none => none
        else if d = Char.ofNat 114 then
          match scanStringBody rest2 with
          | some (v, n, r) => some (crc :: v, n + 2, r)
          | none => none
        else if d = Char.ofNat 116 then
          match scanStringBody rest2 with
          | some (v, n, r) => some (Char.ofNat 9 :: v, n + 2, r)
          | none => none
        else if d = Char.ofNat 117 then
          match rest2 with
          | a :: b2 :: c2 :: d2 :: rest3 =>
            if isHexDigit a ∧ isHexDigit b2 ∧ isHexDigit c2 ∧ isHexDigit d2 then
              match scanStringBody rest3 with
              | some (v, n, r) => some (fromCharCode (hexValue [a, b2, c2, d2]) :: v, n + 6, r)
              | none => none
            else none
          | _ => none
        else none
    else
      match scanStringBody rest with
      | some (v, n, r) => some (c :: v, n + 1, r)
      | none => none

/-- Characters a scalar token (number, true, false, null) is made of. -/
def isScalarChar (c : Char) : Bool :=
  (decide (Char.ofNat 48 ≤ c) && decide (c ≤ Char.ofNat 57)) ||
  (decide (Char.ofNat 97 ≤ c) && decide (c ≤ Char.ofNat 122)) ||
  c = Char.ofNat 45 || c = Char.ofNat 43 || c = Char.ofNat 46

/-- Greedy scan of one scalar token. -/
def takeScalar : List Char → (List Char × List Char)
  | [] => ([], [])
  | c :: rest =>
    if isScalarChar c then
      let t := takeScalar rest
      (c :: t.1, t.2)
    else ([], c :: rest)

mutual

/-- Event-emitting value parser for the tolerant mode: objects and arrays
accept a trailing comma, trivia includes comments. The fuel only bounds
recursion depth; `text.length + 1` always suffices. -/
def parseValueE : Nat → List Char → Nat → Option (List VisitEvent × List Char × Nat)
  | 0, _, _ => none
  | fuel + 1, cs, pos =>
    match skipTrivia (cs.length + 1) cs pos with
    | none => none
    | some ([], _) => none
    | some (c :: rest, p1) =>
      if c = qc then
        match scanStringBody rest with
        | some (value, n, rest2) => some ([.literalString value p1 (n + 1)], rest2, p1 + 1 + n)
        | none => none
      else if c = lbr then
        match skipTrivia (rest.length + 1) rest (p1 + 1) with
        | some (c2 :: rest2, p2) =>
          if c2 = rbr then some ([.objectBegin, .objectEnd], rest2, p2 + 1)
          else
            match parseMembersE fuel (c2 :: rest2) p2 with
            | some (evs, rest3, p3) => some (.objectBegin :: evs ++ [.objectEnd], rest3, p3)
            | none => none
        | _ => none
      else if c = Char.ofNat 91 then
        match skipTrivia (rest.length + 1) rest (p1 + 1) with
        | some (c2 :: rest2, p2) =>
          if c2 = Char.ofNat 93 then some ([.arrayBegin, .arrayEnd], rest2, p2 + 1)
          else
            match parseElemsE fuel (c2 :: rest2) p2 with
            | some (evs, rest3, p3) => some (.arrayBegin :: evs ++ [.arrayEnd], rest3, p3)
            | none => none
        | _ => none
      else
        match takeScalar (c :: rest) with
        | ([], _) => none
        | (t, r) => some ([.literalOther], r, p1 + t.length)

/-- Members of a nonempty object: property, colon, value, then a comma
(possibly trailing) or the closing brace, which is consumed. -/
def parseMembersE : Nat → List Char → Nat → Option (List VisitEvent × List Char × Nat)
  | 0, _, _ => none
  | fuel + 1, cs, pos =>
    match cs with
    | [] => none
    | c :: rest =>
      if c = qc then
        match scanStringBody rest with
        | some (key, n, rest2) =>
          match skipTrivia (rest2.length + 1) rest2 (pos + 1 + n) with
          | some (c2 :: rest3, p3) =>
            if c2 = Char.ofNat 58 then
              match parseValueE fuel rest3 (p3 + 1) with
              | some (evs, rest4, p4) =>
                match skipTrivia (rest4.length + 1) rest4 p4 with
                | some (c3 :: rest5, p5) =>
                  if c3 = Char.ofNat 44 then
                    match skipTrivia (rest5.length + 1) rest5 (p5 + 1) with
                    | some (c4 :: rest6, p6) =>
                      if c4 = rbr then some (.objectProperty key :: evs, rest6, p6 + 1)
                      else
                        match parseMembersE fuel (c4 :: rest6) p6 with
                        | some (evs2, rest7, p7) =>
                          some (.objectProperty key :: evs ++ evs2, rest7, p7)
                        | none => none
                    | _ => none
                  else if c3 = rbr then some (.objectProperty key :: evs, rest5, p5 + 1)
                  else none
                | _ => none
              | none => none
            else none
          | _ => none
        | none => none
      else none

/-- Elements of a nonempty array: value, then a comma (possibly trailing)
or the closing bracket, which is consumed. -/
def parseElemsE : Nat → List Char → Nat → Option (List VisitEvent × List Char × Nat)
  | 0, _, _ => none
  | fuel + 1, cs, pos =>
    match parseValueE fuel cs pos with
    | some (evs, rest, p1) =>
      match skipTrivia (rest.length + 1) rest p1 with
      | some (c :: rest2, p2) =>
        if c = Char.ofNat 44 then
          match skipTrivia (rest2.length + 1) rest2 (p2 + 1) with
          | some (c2 :: rest3, p3) =>
            if c2 = Char.ofNat 93 then some (evs, rest3, p3 + 1)
            else
              match parseElemsE fuel (c2 :: rest3) p3 with
              | some (evs2, rest4, p4) => some (evs ++ evs2, rest4, p4)
              | none => none
          | _ => none
        else if c = Char.ofNat 93 then some (evs, rest2, p2 + 1)
        else none
      | _ => none
    | none => none

end

/-- Model of `parseTree` plus `visit` in the tolerant configuration of the
detector: the event stream of the document, or `none` when no tree
results. -/
def visitModel (text : List Char) : Option (List VisitEvent) :=
  match parseValueE (text.length + 1) text 0 with
  | some (evs, rest, p) =>
    match skipTrivia (rest.length + 1) rest p with
    | some ([], _) => some evs
    | _ => none
  | none => none

/-- Try-block body of `detectCodeAtPosition`: parse tolerantly; on a tree,
walk it; otherwise fall back to the partial scanner. The `Except` layer
records the exception channel of the JavaScript try block. -/
def detectBody (text : List Char) (offset : Nat) : Except (List Char) (Option CodeBlockInfo) :=
  match visitModel text with
  | some evs => .ok (findCodeInObjectWithAST evs offset)
  | none => .ok (findCodeInPartialJson text offset)

/-- Catch clause of `detectCodeAtPosition`: an exception is logged and
becomes a null result. -/
def catchToNull (r : Except (List Char) (Option CodeBlockInfo)) : Option CodeBlockInfo :=
  match r with
  | .ok v => v
  | .error _ => none

/-- Model of the public `CodeDetector.detectCodeAtPosition`. -/
def detectCodeAtPosition (text : List Char) (offset : Nat) : Option CodeBlockInfo :=
  catchToNull (detectBody text offset)

/-- C10 witness. The span-shape law applied at the concrete malformed
document of the spec example, at an offset inside the code string. -/
theorem c10_fallback_span_shape_witness :
    ∃ info : CodeBlockInfo, findCodeInPartialJson adaptorText.data 20 = some info ∧
      ∃ content,
        (adaptorText.data.drop info.start).take (info.stop - info.start) =
          qc :: (content ++ [qc]) ∧
        info.stop = info.start + content.length + 2 ∧
        info.code = unescapeString content ∧
        info.start ≤ 20 ∧ 20 ≤ info.stop := by
  refine ⟨⟨"function test()\x7b return 1; \x7d".data, 12, 42, "adaptor".data,
    "adaptor".data⟩, by decide, ?_⟩
  exact c10_fallback_span_shape adaptorText.data 20 _ (by decide)

/-- Document of the sibling-path example of the spec. -/
def c1doc : String := "\x7b\"a\": \x7b\"x\": \"1\", \"y\": \"2\"\x7d, \"b\": \"3\"\x7d"

/-- C1 (code-bug evidence). On the exact document of the sibling-path
claim, detection inside the value of `y` (offset 23) returns keyPath
`a.x.y`, not the `a.y` the claim and the repository test suite demand, and
detection inside the value of `b` (offset 34) returns keyPath `a.x.b`,
not `b`: the visitor pushes every property name but pops only on object
end, so a previously visited sibling leaks a stale path segment. -/
theorem c1_sibling_keypaths_stale :
    ((detectCodeAtPosition c1doc.data 23).map (fun i => (i.fieldName, i.keyPath)) =
      some ("y".data, "a.x.y".data)) ∧
    "a.x.y".data ≠ "a.y".data ∧
    ((detectCodeAtPosition c1doc.data 34).map (fun i => (i.fieldName, i.keyPath)) =
      some ("b".data, "a.x.b".data)) ∧
    "a.x.b".data ≠ "b".data := by
  refine ⟨by decide, by decide, by decide, by decide⟩

/-- C6. Boundary contract of the detector: for every text and offset the
public entry point returns either a detection record or null, it is
exactly the catch wrapper around the try-block body, and the catch clause
converts every exception raised inside into a null result. -/
theorem c6_no_exception_across_boundary :
    (∀ (text : List Char) (offset : Nat),
      detectCodeAtPosition text offset = none ∨
      ∃ info, detectCodeAtPosition text offset = some info) ∧
    (∀ (text : List Char) (offset : Nat),
      detectCodeAtPosition text offset = catchToNull (detectBody text offset)) ∧
    (∀ msg : List Char, catchToNull (.error msg) = none) := by
  refine ⟨?_, fun _ _ => rfl, fun _ => rfl⟩
  intro text offset
  cases h : detectCodeAtPosition text offset with
  | none => exact Or.inl rfl
  | some info => exact Or.inr ⟨info, rfl⟩

/-- Well-formed document of the detection-span claim, with the content
of the string value of `k` occupying byte range 7..9 (quotes at 6 and
9). -/
def c2doc : String := "\x7b\"k\": \"ab\"\x7d"

/-- C2 counterexample. On the document with string content at byte range
7..9 quotes excluded, detecting at offset 7 returns `start = 6` and
`stop = 10` — the span of the literal with the quotes included — not the
claimed content range 7..9: the characters at offsets 6 and 9 are the
quotes themselves. -/
theorem c2_counterexample_span_includes_quotes :
    ((detectCodeAtPosition c2doc.data 7).map (fun i => (i.start, i.stop)) = some (6, 10)) ∧
    ((6, 10) : Nat × Nat) ≠ (7, 9) ∧
    c2doc.data.get? 6 = some qc ∧ c2doc.data.get? 9 = some qc := by
  refine ⟨by decide, by decide, by decide, by decide⟩

/-! ### Well-formed documents as trees, their serialization and their
visit events

For the universally quantified span theorem, a well-formed document is
given as a tree whose string leaves carry their source-form content (the
characters between the quotes). `serVal` produces the document text and
`evVal` the visit event stream jsonc-parser delivers for that text, with
string-token offsets and lengths determined by the same position
arithmetic as the serialization, so that every literal event points at
the quoted literal inside `serVal` (proved below, not assumed). -/

/-- Document tree: string leaf (source-form content), scalar leaf (token
text of a number, boolean or null), object, array. -/
inductive JVal where
  | jstr (raw : List Char)
  | jnum (raw : List Char)
  | jobj (fields : List (List Char × JVal))
  | jarr (elems : List JVal)

mutual

/-- Document text of a tree, in minimal form (no interstitial
whitespace). -/
def serVal : JVal → List Char
  | .jstr raw => qc :: raw ++ [qc]
  | .jnum raw => raw
  | .jobj fs => lbr :: serFields fs ++ [rbr]
  | .jarr es => Char.ofNat 91 :: serElems es ++ [Char.ofNat 93]

/-- Text of one object member: quoted key, colon, value. -/
def serField (k : List Char) (v : JVal) : List Char :=
  qc :: k ++ qc :: Char.ofNat 58 :: serVal v

/-- Comma-separated member list. -/
def serFields : List (List Char × JVal) → List Char
  | [] => []
  | [(k, v)] => serField k v
  | (k, v) :: f :: rest => serField k v ++ Char.ofNat 44 :: serFields (f :: rest)

/-- Comma-separated element list. -/
def serElems : List JVal → List Char
  | [] => []
  | [v] => serVal v
  | v :: w :: rest => serVal v ++ Char.ofNat 44 :: serElems (w :: rest)

end

/-- Parsed value of a string leaf: the jsonc decoding of its source-form
content, obtained by scanning the content against the string-token
scanner. -/
def decodeRaw (raw : List Char) : Option (List Char) :=
  match scanStringBody (raw ++ [qc]) with
  | some (v, _, []) => some v
  | _ => none

/-- Total version of `decodeRaw` for event construction. -/
def decodeRawD (raw : List Char) : List Char := (decodeRaw raw).getD []

mutual

/-- Visit events of a tree serialized at position `pos`. -/
def evVal : JVal → Nat → List VisitEvent
  | .jstr raw, pos => [.literalString (decodeRawD raw) pos (raw.length + 2)]
  | .jnum _, _ => [.literalOther]
  | .jobj fs, pos => .objectBegin :: evFields fs (pos + 1) ++ [.objectEnd]
  | .jarr es, pos => .arrayBegin :: evElems es (pos + 1) ++ [.arrayEnd]

/-- Visit events of a member list starting at position `pos`. -/
def evFields : List (List Char × JVal) → Nat → List VisitEvent
  | [], _ => []
  | [(k, v)], pos => .objectProperty k :: evVal v (pos + k.length + 3)
  | (k, v) :: f :: rest, pos =>
    (.objectProperty k :: evVal v (pos + k.length + 3)) ++
      evFields (f :: rest) (pos + k.length + 3 + (serVal v).length + 1)

/-- Visit events of an element list starting at position `pos`. -/
def evElems : List JVal → Nat → List VisitEvent
  | [], _ => []
  | [v], pos => evVal v pos
  | v :: w :: rest, pos => evVal v pos ++ evElems (w :: rest) (pos + (serVal v).length + 1)

end

mutual

/-- Location of a string leaf that is the direct value of a property named
`k`, with source-form content `raw`, inside a tree serialized at position
`pos`; `s` is the absolute position of the opening quote of the value
token. -/
inductive OwnedV : JVal → Nat → List Char → List Char → Nat → Prop where
  | obj {fs : List (List Char × JVal)} {pos : Nat} {k raw : List Char} {s : Nat} :
      OwnedF fs (pos + 1) k raw s → OwnedV (.jobj fs) pos k raw s
  | arr {es : List JVal} {pos : Nat} {k raw : List Char} {s : Nat} :
      OwnedE es (pos + 1) k raw s → OwnedV (.jarr es) pos k raw s

/-- Location of such a leaf inside a member list at position `pos`. -/
inductive OwnedF : List (List Char × JVal) → Nat → List Char → List Char → Nat → Prop where
  | here {k raw : List Char} {rest : List (List Char × JVal)} {pos : Nat} :
      OwnedF ((k, .jstr raw) :: rest) pos k raw (pos + k.length + 3)
  | inside {k0 : List Char} {v0 : JVal} {rest : List (List Char × JVal)} {pos : Nat}
      {k raw : List Char} {s : Nat} :
      OwnedV v0 (pos + k0.length + 3) k raw s → OwnedF ((k0, v0) :: rest) pos k raw s
  | tail {k0 : List Char} {v0 : JVal} {rest : List (List Char × JVal)} {pos : Nat}
      {k raw : List Char} {s : Nat} :
      OwnedF rest (pos + k0.length + 3 + (serVal v0).length + 1) k raw s →
      OwnedF ((k0, v0) :: rest) pos k raw s

/-- Location of such a leaf inside an element list at position `pos`. -/
inductive OwnedE : List JVal → Nat → List Char → List Char → Nat → Prop where
  | head {v : JVal} {es : List JVal} {pos : Nat} {k raw : List Char} {s : Nat} :
      OwnedV v pos k raw s → OwnedE (v :: es) pos k raw s
  | tail {v : JVal} {es : List JVal} {pos : Nat} {k raw : List Char} {s : Nat} :
      OwnedE es (pos + (serVal v).length + 1) k raw s → OwnedE (v :: es) pos k raw s

end

theorem serVal_jstr_length (raw : List Char) : (serVal (.jstr raw)).length = raw.length + 2 := by
  simp [serVal]

theorem serField_length (k : List Char) (v : JVal) :
    (serField k v).length = k.length + 3 + (serVal v).length := by
  simp [serField]
  omega

theorem serVal_jobj_length (fs : List (List Char × JVal)) :
    (serVal (.jobj fs)).length = (serFields fs).length + 2 := by
  simp [serVal]

theorem serVal_jarr_length (es : List JVal) :
    (serVal (.jarr es)).length = (serElems es).length + 2 := by
  simp [serVal]

theorem serFields_cons_cons_length (k : List Char) (v : JVal) (f : List Char × JVal)
    (rest : List (List Char × JVal)) :
    (serFields ((k, v) :: f :: rest)).length =
      k.length + 3 + (serVal v).length + 1 + (serFields (f :: rest)).length := by
  simp [serFields, serField]
  omega

mutual

theorem ownedV_ge : ∀ {v : JVal} {pos : Nat} {k raw : List Char} {s : Nat},
    OwnedV v pos k raw s → pos ≤ s
  | _, _, _, _, _, .obj h => Nat.le_trans (Nat.le_succ _) (ownedF_ge h)
  | _, _, _, _, _, .arr h => Nat.le_trans (Nat.le_succ _) (ownedE_ge h)

theorem ownedF_ge : ∀ {fs : List (List Char × JVal)} {pos : Nat} {k raw : List Char} {s : Nat},
    OwnedF fs pos k raw s → pos ≤ s
  | _, _, _, _, _, .here => by omega
  | _, _, _, _, _, .inside h => Nat.le_trans (by omega) (ownedV_ge h)
  | _, _, _, _, _, .tail h => Nat.le_trans (by omega) (ownedF_ge h)

theorem ownedE_ge : ∀ {es : List JVal} {pos : Nat} {k raw : List Char} {s : Nat},
    OwnedE es pos k raw s → pos ≤ s
  | _, _, _, _, _, .head h => ownedV_ge h
  | _, _, _, _, _, .tail h => Nat.le_trans (by omega) (ownedE_ge h)

end

mutual

theorem evVal_lit_bound : ∀ (v : JVal) (pos : Nat) (val : List Char) (off len : Nat),
    VisitEvent.literalString val off len ∈ evVal v pos →
    pos ≤ off ∧ off + len ≤ pos + (serVal v).length
  | .jstr raw, pos, val, off, len, h => by
    simp only [evVal, List.mem_singleton, VisitEvent.literalString.injEq] at h
    obtain ⟨_, rfl, rfl⟩ := h
    rw [serVal_jstr_length]
    omega
  | .jnum raw, pos, val, off, len, h => by simp [evVal] at h
  | .jobj fs, pos, val, off, len, h => by
    simp only [evVal, List.mem_cons, List.mem_append, List.mem_singleton] at h
    rcases h with (h | h) | h
    · exact absurd h (by simp)
    · have hb := evFields_lit_bound fs (pos + 1) val off len h
      rw [serVal_jobj_length]
      omega
    · exact absurd h (by simp)
  | .jarr es, pos, val, off, len, h => by
    simp only [evVal, List.mem_cons, List.mem_append, List.mem_singleton] at h
    rcases h with (h | h) | h
    · exact absurd h (by simp)
    · have hb := evElems_lit_bound es (pos + 1) val off len h
      rw [serVal_jarr_length]
      omega
    · exact absurd h (by simp)

theorem evFields_lit_bound : ∀ (fs : List (List Char × JVal)) (pos : Nat) (val : List Char)
    (off len : Nat), VisitEvent.literalString val off len ∈ evFields fs pos →
    pos ≤ off ∧ off + len ≤ pos + (serFields fs).length
  | [], pos, val, off, len, h => by simp [evFields] at h
  | [(k, v)], pos, val, off, len, h => by
    simp only [evFields, List.mem_cons] at h
    rcases h with h | h
    · exact absurd h (by simp)
    · have hb := evVal_lit_bound v (pos + k.length + 3) val off len h
      have hl : (serFields [(k, v)]).length = k.length + 3 + (serVal v).length := by
        simp only [serFields]
        exact serField_length k v
      omega
  | (k, v) :: f :: rest, pos, val, off, len, h => by
    simp only [evFields, List.cons_append, List.mem_cons, List.mem_append] at h
    rcases h with h | h | h
    · exact absurd h (by simp)
    · have hb := evVal_lit_bound v (pos + k.length + 3) val off len h
      have hl := serFields_cons_cons_length k v f rest
      omega
    · have hb := evFields_lit_bound (f :: rest) (pos + k.length + 3 + (serVal v).length + 1)
        val off len h
      have hl := serFields_cons_cons_length k v f rest
      omega

theorem evElems_lit_bound : ∀ (es : List JVal) (pos : Nat) (val : List Char) (off len : Nat),
    VisitEvent.literalString val off len ∈ evElems es pos →
    pos ≤ off ∧ off + len ≤ pos + (serElems es).length
  | [], pos, val, off, len, h => by simp [evElems] at h
  | [v], pos, val, off, len, h => by
    have hb := evVal_lit_bound v pos val off len (by simpa [evElems] using h)
    simpa [serElems] using hb
  | v :: w :: rest, pos, val, off, len, h => by
    simp only [evElems, List.mem_append] at h
    have hl : (serElems (v :: w :: rest)).length =
        (serVal v).length + 1 + (serElems (w :: rest)).length := by
      simp [serElems]
      omega
    rcases h with h | h
    · have hb := evVal_lit_bound v pos val off len h
      omega
    · have hb := evElems_lit_bound (w :: rest) (pos + (serVal v).length + 1) val off len h
      omega


end

mutual

theorem ownedV_slice : ∀ {v : JVal} {pos : Nat} {k raw : List Char} {s : Nat},
    OwnedV v pos k raw s →
    ∃ pre suf, serVal v = pre ++ qc :: raw ++ qc :: suf ∧ pos + pre.length = s
  | _, _, _, _, _, .obj h => by
    obtain ⟨pre, suf, heq, hlen⟩ := ownedF_slice h
    refine ⟨lbr :: pre, suf ++ [rbr], ?_, by simp only [List.length_cons]; omega⟩
    simp [serVal, heq]
  | _, _, _, _, _, .arr h => by
    obtain ⟨pre, suf, heq, hlen⟩ := ownedE_slice h
    refine ⟨Char.ofNat 91 :: pre, suf ++ [Char.ofNat 93], ?_, by simp only [List.length_cons]; omega⟩
    simp [serVal, heq]

theorem ownedF_slice : ∀ {fs : List (List Char × JVal)} {pos : Nat} {k raw : List Char} {s : Nat},
    OwnedF fs pos k raw s →
    ∃ pre suf, serFields fs = pre ++ qc :: raw ++ qc :: suf ∧ pos + pre.length = s
  | _, _, _, _, _, @OwnedF.here k raw rest pos => by
    cases rest with
    | nil =>
      refine ⟨qc :: k ++ [qc, Char.ofNat 58], [], ?_, by simp; omega⟩
      simp [serFields, serField, serVal]
    | cons f rest2 =>
      refine ⟨qc :: k ++ [qc, Char.ofNat 58], Char.ofNat 44 :: serFields (f :: rest2), ?_,
        by simp; omega⟩
      simp [serFields, serField, serVal]
  | _, _, _, _, _, @OwnedF.inside k0 v0 rest pos _ _ _ h => by
    obtain ⟨pre0, suf0, heq, hlen⟩ := ownedV_slice h
    cases rest with
    | nil =>
      refine ⟨qc :: k0 ++ [qc, Char.ofNat 58] ++ pre0, suf0, ?_, by simp; omega⟩
      simp [serFields, serField, heq]
    | cons f rest2 =>
      refine ⟨qc :: k0 ++ [qc, Char.ofNat 58] ++ pre0,
        suf0 ++ Char.ofNat 44 :: serFields (f :: rest2), ?_, by simp; omega⟩
      simp [serFields, serField, heq]
  | _, _, _, _, _, @OwnedF.tail k0 v0 rest pos _ _ _ h => by
    cases rest with
    | nil => exact absurd h (by intro hh; nomatch hh)
    | cons f rest2 =>
      obtain ⟨pre1, suf1, heq, hlen⟩ := ownedF_slice h
      refine ⟨serField k0 v0 ++ Char.ofNat 44 :: pre1, suf1, ?_, ?_⟩
      · simp [serFields, heq]
      · have hfl := serField_length k0 v0
        simp only [List.length_append, List.length_cons]
        omega

theorem ownedE_slice : ∀ {es : List JVal} {pos : Nat} {k raw : List Char} {s : Nat},
    OwnedE es pos k raw s →
    ∃ pre suf, serElems es = pre ++ qc :: raw ++ qc :: suf ∧ pos + pre.length = s
  | _, _, _, _, _, @OwnedE.head v es pos _ _ _ h => by
    obtain ⟨pre0, suf0, heq, hlen⟩ := ownedV_slice h
    cases es with
    | nil => exact ⟨pre0, suf0, by simp [serElems, heq], hlen⟩
    | cons w rest2 =>
      refine ⟨pre0, suf0 ++ Char.ofNat 44 :: serElems (w :: rest2), ?_, hlen⟩
      simp [serElems, heq]
  | _, _, _, _, _, @OwnedE.tail v es pos _ _ _ h => by
    cases es with
    | nil => exact absurd h (by intro hh; nomatch hh)
    | cons w rest2 =>
      obtain ⟨pre1, suf1, heq, hlen⟩ := ownedE_slice h
      refine ⟨serVal v ++ Char.ofNat 44 :: pre1, suf1, ?_, ?_⟩
      · simp [serElems, heq]
      · simp only [List.length_append, List.length_cons]
        omega

end

/-- Event of the located literal: property announcement followed by the
string literal with the token span of the leaf. -/
def ownedEvents (k raw : List Char) (s : Nat) : List VisitEvent :=
  [.objectProperty k, .literalString (decodeRawD raw) s (raw.length + 2)]

mutual

theorem ownedV_split : ∀ {v : JVal} {pos : Nat} {k raw : List Char} {s : Nat},
    OwnedV v pos k raw s →
    ∃ E1 E2, evVal v pos = E1 ++ ownedEvents k raw s ++ E2 ∧
      ∀ val off len, VisitEvent.literalString val off len ∈ E1 → off + len < s
  | _, _, _, _, _, @OwnedV.obj fs pos _ _ _ h => by
    obtain ⟨E1, E2, heq, hb⟩ := ownedF_split h
    refine ⟨.objectBegin :: E1, E2 ++ [.objectEnd], ?_, ?_⟩
    · simp [evVal, heq]
    · intro val off len hm
      simp only [List.mem_cons] at hm
      rcases hm with hm | hm
      · exact absurd hm (by simp)
      · exact hb val off len hm
  | _, _, _, _, _, @OwnedV.arr es pos _ _ _ h => by
    obtain ⟨E1, E2, heq, hb⟩ := ownedE_split h
    refine ⟨.arrayBegin :: E1, E2 ++ [.arrayEnd], ?_, ?_⟩
    · simp [evVal, heq]
    · intro val off len hm
      simp only [List.mem_cons] at hm
      rcases hm with hm | hm
      · exact absurd hm (by simp)
      · exact hb val off len hm

theorem ownedF_split : ∀ {fs : List (List Char × JVal)} {pos : Nat} {k raw : List Char} {s : Nat},
    OwnedF fs pos k raw s →
    ∃ E1 E2, evFields fs pos = E1 ++ ownedEvents k raw s ++ E2 ∧
      ∀ val off len, VisitEvent.literalString val off len ∈ E1 → off + len < s
  | _, _, _, _, _, @OwnedF.here k raw rest pos => by
    cases rest with
    | nil =>
      refine ⟨[], [], ?_, by intro val off len hm; simp at hm⟩
      simp [evFields, evVal, ownedEvents]
    | cons f rest2 =>
      refine ⟨[], evFields (f :: rest2) (pos + k.length + 3 + (serVal (.jstr raw)).length + 1),
        ?_, by intro val off len hm; simp at hm⟩
      simp [evFields, evVal, ownedEvents]
  | _, _, _, _, _, @OwnedF.inside k0 v0 rest pos _ _ _ h => by
    obtain ⟨E1, E2, heq, hb⟩ := ownedV_split h
    cases rest with
    | nil =>
      refine ⟨.objectProperty k0 :: E1, E2, ?_, ?_⟩
      · simp [evFields, heq]
      · intro val off len hm
        simp only [List.mem_cons] at hm
        rcases hm with hm | hm
        · exact absurd hm (by simp)
        · exact hb val off len hm
    | cons f rest2 =>
      refine ⟨.objectProperty k0 :: E1,
        E2 ++ evFields (f :: rest2) (pos + k0.length + 3 + (serVal v0).length + 1), ?_, ?_⟩
      · simp [evFields, heq]
      · intro val off len hm
        simp only [List.mem_cons] at hm
        rcases hm with hm | hm
        · exact absurd hm (by simp)
        · exact hb val off len hm
  | _, _, _, _, _, @OwnedF.tail k0 v0 rest pos _ _ _ h => by
    cases rest with
    | nil => exact absurd h (by intro hh; nomatch hh)
    | cons f rest2 =>
      obtain ⟨E1, E2, heq, hb⟩ := ownedF_split h
      have hges : pos + k0.length + 3 + (serVal v0).length + 1 ≤ _ := ownedF_ge h
      refine ⟨(.objectProperty k0 :: evVal v0 (pos + k0.length + 3)) ++ E1, E2, ?_, ?_⟩
      · simp [evFields, heq]
      · intro val off len hm
        simp only [List.cons_append, List.mem_cons, List.mem_append] at hm
        rcases hm with hm | hm | hm
        · exact absurd hm (by simp)
        · have hbv := evVal_lit_bound v0 (pos + k0.length + 3) val off len hm
          omega
        · exact hb val off len hm

theorem ownedE_split : ∀ {es : List JVal} {pos : Nat} {k raw : List Char} {s : Nat},
    OwnedE es pos k raw s →
    ∃ E1 E2, evElems es pos = E1 ++ ownedEvents k raw s ++ E2 ∧
      ∀ val off len, VisitEvent.literalString val off len ∈ E1 → off + len < s
  | _, _, _, _, _, @OwnedE.head v es pos _ _ _ h => by
    obtain ⟨E1, E2, heq, hb⟩ := ownedV_split h
    cases es with
    | nil => exact ⟨E1, E2, by simp [evElems, heq], hb⟩
    | cons w rest2 =>
      refine ⟨E1, E2 ++ evElems (w :: rest2) (pos + (serVal v).length + 1), ?_, hb⟩
      simp [evElems, heq]
  | _, _, _, _, _, @OwnedE.tail v es pos _ _ _ h => by
    cases es with
    | nil => exact absurd h (by intro hh; nomatch hh)
    | cons w rest2 =>
      obtain ⟨E1, E2, heq, hb⟩ := ownedE_split h
      have hges : pos + (serVal v).length + 1 ≤ _ := ownedE_ge h
      refine ⟨evVal v pos ++ E1, E2, ?_, ?_⟩
      · simp [evElems, heq]
      · intro val off len hm
        simp only [List.mem_append] at hm
        rcases hm with hm | hm
        · have hbv := evVal_lit_bound v pos val off len hm
          omega
        · exact hb val off len hm

end

theorem runVisit_append (a b : List VisitEvent) (s : VisitState) :
    runVisit (a ++ b) s = runVisit b (runVisit a s) :=
  List.foldl_append _ _ _ _

theorem runVisit_pending_prefix : ∀ (evs : List VisitEvent) (s : VisitState),
    ∃ d, (runVisit evs s).pending = s.pending ++ d := by
  intro evs
  induction evs with
  | nil => exact fun s => ⟨[], by simp [runVisit]⟩
  | cons e evs ih =>
    intro s
    have hstep : ∃ d1, (visitStep s e).pending = s.pending ++ d1 := by
      cases e with
      | objectBegin => exact ⟨[], by simp [visitStep]⟩
      | objectProperty name => exact ⟨[], by simp [visitStep]⟩
      | objectEnd => exact ⟨[], by simp [visitStep]⟩
      | arrayBegin => exact ⟨[], by simp [visitStep]⟩
      | arrayEnd => exact ⟨[], by simp [visitStep]⟩
      | literalOther => exact ⟨[], by simp [visitStep]⟩
      | literalString v off len =>
        cases hcp : s.currentProperty with
        | none => exact ⟨[], by simp [visitStep, hcp]⟩
        | some p =>
          by_cases hp : p ≠ []
          · exact ⟨[⟨p, v, off, len, joinDots s.pathStack⟩], by simp [visitStep, hcp, hp]⟩
          · exact ⟨[], by simp [visitStep, hcp, hp]⟩
    obtain ⟨d1, h1⟩ := hstep
    obtain ⟨d2, h2⟩ := ih (visitStep s e)
    refine ⟨d1 ++ d2, ?_⟩
    show (runVisit evs (visitStep s e)).pending = _
    rw [h2, h1, List.append_assoc]

theorem pending_mem_events : ∀ (evs : List VisitEvent) (s : VisitState) (q : Pending),
    q ∈ (runVisit evs s).pending →
    q ∈ s.pending ∨
      VisitEvent.literalString q.value q.valueOffset q.valueLength ∈ evs := by
  intro evs
  induction evs with
  | nil => intro s q h; exact Or.inl h
  | cons e evs ih =>
    intro s q h
    have h2 : q ∈ (runVisit evs (visitStep s e)).pending := h
    rcases ih (visitStep s e) q h2 with hin | hin
    · cases e with
      | objectBegin => exact Or.inl hin
      | objectProperty name => exact Or.inl hin
      | objectEnd => exact Or.inl hin
      | arrayBegin => exact Or.inl hin
      | arrayEnd => exact Or.inl hin
      | literalOther => exact Or.inl hin
      | literalString v off len =>
        cases hcp : s.currentProperty with
        | none =>
          simp only [visitStep, hcp] at hin
          exact Or.inl hin
        | some p =>
          by_cases hp : p ≠ []
          · rw [show visitStep s (VisitEvent.literalString v off len) =
                { s with pending :=
                    s.pending ++ [⟨p, v, off, len, joinDots s.pathStack⟩] } by
              simp [visitStep, hcp, hp]] at hin
            rcases List.mem_append.mp hin with hin | hin
            · exact Or.inl hin
            · rw [List.mem_singleton] at hin
              subst hin
              exact Or.inr (by simp)
          · rw [show visitStep s (VisitEvent.literalString v off len) = s by
              simp [visitStep, hcp, hp]] at hin
            exact Or.inl hin
    · exact Or.inr (List.mem_cons_of_mem _ hin)

theorem scanPending_skip_prefix : ∀ (P1 P2 : List Pending) (offset : Nat),
    (∀ q ∈ P1, ¬(q.valueOffset ≤ offset ∧ offset ≤ q.valueOffset + q.valueLength)) →
    scanPending offset (P1 ++ P2) = scanPending offset P2 := by
  intro P1
  induction P1 with
  | nil => intro P2 offset _; rfl
  | cons p P1 ih =>
    intro P2 offset hq
    have hp := hq p (by simp)
    show scanPending offset (p :: (P1 ++ P2)) = _
    rw [scanPending, if_neg hp]
    exact ih P2 offset (fun q hq2 => hq q (by simp [hq2]))

/-- C2 as amended. For every well-formed document and every string leaf
that is the direct value of a property `k` — source content `raw`, token
occupying the byte range from `s` (the opening quote) to
`s + raw.length + 2` (one past the closing quote) in the document text —
detection at any offset in the inclusive span of the WHOLE quoted literal
returns that leaf with `start` at the opening quote and `stop` one past
the closing quote (quotes INCLUDED, not excluded as the claim stated),
field name `k`, and code equal to `unescapeString` applied to the parsed
string value (a second unescape pass on top of the JSON decoding, not the
plain unescaped content). The final conjunct grounds the span in the
text: the slice between `start` and `stop` is the quoted literal. -/
theorem c2_span_contract_amended :
    ∀ (doc : JVal) (k raw : List Char) (s : Nat),
      OwnedV doc 0 k raw s → k ≠ [] →
      ∀ val, decodeRaw raw = some val →
      ∀ offset, s ≤ offset → offset ≤ s + raw.length + 2 →
      ∃ info, findCodeInObjectWithAST (evVal doc 0) offset = some info ∧
        info.start = s ∧ info.stop = s + raw.length + 2 ∧
        info.fieldName = k ∧ info.code = unescapeString val ∧
        ((serVal doc).drop s).take (raw.length + 2) = qc :: raw ++ [qc] := by
  intro doc k raw s howned hk val hval offset h1 h2
  obtain ⟨E1, E2, heq, hb⟩ := ownedV_split howned
  have hslice : ((serVal doc).drop s).take (raw.length + 2) = qc :: raw ++ [qc] := by
    obtain ⟨pre, suf, hser, hlen⟩ := ownedV_slice howned
    have hpre : pre.length = s := by omega
    rw [hser, ← hpre,
      show pre ++ qc :: raw ++ qc :: suf = pre ++ (qc :: (raw ++ qc :: suf)) by simp,
      List.drop_left]
    rw [show raw.length + 2 = (raw.length + 1) + 1 from rfl]
    rw [List.take_succ_cons, take_content_quote]
    simp
  set σ := runVisit E1 initState with hσ
  have hσ1 : visitStep σ (.objectProperty k) =
      ⟨some k, σ.pathStack ++ [k], σ.pending⟩ := by
    simp [visitStep]
  have hval2 : decodeRawD raw = val := by simp [decodeRawD, hval]
  set Pstar : Pending := ⟨k, decodeRawD raw, s, raw.length + 2,
    joinDots (σ.pathStack ++ [k])⟩ with hPdef
  have hσ2 : runVisit (ownedEvents k raw s) σ =
      ⟨some k, σ.pathStack ++ [k], σ.pending ++ [Pstar]⟩ := by
    show visitStep (visitStep σ (.objectProperty k)) (.literalString (decodeRawD raw) s (raw.length + 2)) = _
    rw [hσ1]
    simp [visitStep, hk, hPdef]
  have hrun : runVisit (evVal doc 0) initState =
      runVisit E2 ⟨some k, σ.pathStack ++ [k], σ.pending ++ [Pstar]⟩ := by
    rw [heq, runVisit_append, runVisit_append, ← hσ, hσ2]
  obtain ⟨Δ, hΔ⟩ := runVisit_pending_prefix E2 ⟨some k, σ.pathStack ++ [k], σ.pending ++ [Pstar]⟩
  have hpending : (runVisit (evVal doc 0) initState).pending =
      σ.pending ++ ([Pstar] ++ Δ) := by
    rw [hrun, hΔ]
    simp
  have hskip : ∀ q ∈ σ.pending,
      ¬(q.valueOffset ≤ offset ∧ offset ≤ q.valueOffset + q.valueLength) := by
    intro q hq
    rcases pending_mem_events E1 initState q hq with hin | hin
    · simp [initState] at hin
    · have hbd := hb q.value q.valueOffset q.valueLength hin
      omega
  have hscan : findCodeInObjectWithAST (evVal doc 0) offset = some (mkInfo Pstar) := by
    show scanPending offset (runVisit (evVal doc 0) initState).pending = _
    rw [hpending, scanPending_skip_prefix _ _ _ hskip]
    show scanPending offset (Pstar :: Δ) = _
    rw [scanPending, if_pos]
    exact ⟨h1, by simpa [hPdef] using h2⟩
  refine ⟨mkInfo Pstar, hscan, ?_, ?_, ?_, ?_, hslice⟩
  · rfl
  · show s + (raw.length + 2) = s + raw.length + 2
    omega
  · rfl
  · show unescapeString (decodeRawD raw) = unescapeString val
    rw [hval2]

/-- Agreement check between the two event models: on the serialized form
of the one-field document, the raw-text visit model produces exactly the
event stream of the tree. -/
theorem visitModel_evVal_agree_example :
    visitModel (serVal (.jobj [("k".data, .jstr "ab".data)])) =
      some (evVal (.jobj [("k".data, .jstr "ab".data)]) 0) := by
  have hser : serVal (JVal.jobj [("k".data, JVal.jstr "ab".data)]) =
      "\x7b\"k\":\"ab\"\x7d".data := by
    simp only [serVal, serFields, serField]
    decide
  have hev : evVal (JVal.jobj [("k".data, JVal.jstr "ab".data)]) 0 =
      [.objectBegin, .objectProperty "k".data, .literalString "ab".data 5 4, .objectEnd] := by
    simp only [evVal, evFields]
    decide
  rw [hser, hev]
  decide

/-- C2 witness. The amended span contract applied at the concrete document
with key `k` and string content `ab`: the value token occupies offsets
5 to 9, and detection at offset 6 returns the quote-inclusive span. -/
theorem c2_span_contract_amended_witness :
    ∃ info, findCodeInObjectWithAST
        (evVal (.jobj [("k".data, .jstr "ab".data)]) 0) 6 = some info ∧
      info.start = 5 ∧ info.stop = 9 ∧
      info.fieldName = "k".data ∧ info.code = unescapeString "ab".data ∧
      ((serVal (.jobj [("k".data, .jstr "ab".data)])).drop 5).take 4 =
        qc :: "ab".data ++ [qc] := by
  have h := c2_span_contract_amended (.jobj [("k".data, .jstr "ab".data)])
    "k".data "ab".data 5 (OwnedV.obj OwnedF.here) (by decide)
    "ab".data (by decide) 6 (by decide) (by decide)
  simpa using h

/-! ### Write-back: strict JSON.parse, path update and save

`saveCodeToOriginal` re-parses the original document with the STRICT
`JSON.parse` of the platform (not the tolerant jsonc parse used by
detection). The parser below models the ECMA JSON grammar: whitespace is
space, tab, line feed and carriage return only; no comments; no trailing
commas; strings allow only the JSON escapes; numbers follow the strict
grammar. Duplicate keys follow JavaScript object semantics: the last
value wins at the first position. -/

/-- Strict JSON whitespace. -/
def isJsonWsStrict (c : Char) : Bool :=
  c = Char.ofNat 32 || c = Char.ofNat 9 || c = Char.ofNat 10 || c = crc

/-- Skip strict whitespace. -/
def skipWsStrict : List Char → List Char
  | [] => []
  | c :: rest => if isJsonWsStrict c then skipWsStrict rest else c :: rest

/-- String body after the opening quote under the strict grammar: JSON
escapes only, raw control characters rejected. -/
def scanJsonStringStrict : List Char → Option (List Char × List Char)
  | [] => none
  | c :: rest =>
    if c = qc then some ([], rest)
    else if c = bsl then
      match rest with
      | [] => none
      | d :: rest2 =>
        if d = qc ∨ d = bsl ∨ d = Char.ofNat 47 then
          match scanJsonStringStrict rest2 with
          | some (v, r) => some (d :: v, r)
          | none => none
        else if d = Char.ofNat 98 then
          match scanJsonStringStrict rest2 with
          | some (v, r) => some (Char.ofNat 8 :: v, r)
          | none => none
        else if d = Char.ofNat 102 then
          match scanJsonStringStrict rest2 with
          | some (v, r) => some (Char.ofNat 12 :: v, r)
          | none => none
        else if d = Char.ofNat 110 then
          match scanJsonStringStrict rest2 with
          | some (v, r) => some (Char.ofNat 10 :: v, r)
          | none => none
        else if d = Char.ofNat 114 then
          match scanJsonStringStrict rest2 with
          | some (v, r) => some (crc :: v, r)
          | none => none
        else if d = Char.ofNat 116 then
          match scanJsonStringStrict rest2 with
          | some (v, r) => some (Char.ofNat 9 :: v, r)
          | none => none
        else if d = Char.ofNat 117 then
          match rest2 with
          | a :: b2 :: c2 :: d2 :: rest3 =>
            if isHexDigit a ∧ isHexDigit b2 ∧ isHexDigit c2 ∧ isHexDigit d2 then
              match scanJsonStringStrict rest3 with
              | some (v, r) => some (fromCharCode (hexValue [a, b2, c2, d2]) :: v, r)
              | none => none
            else none
          | _ => none
        else none
    else if c.toNat < 32 then none
    else
      match scanJsonStringStrict rest with
      | some (v, r) => some (c :: v, r)
      | none => none

/-- Decimal digit test. -/
def isDigitCh (c : Char) : Bool :=
  decide (Char.ofNat 48 ≤ c) && decide (c ≤ Char.ofNat 57)

/-- Greedy digit run. -/
def takeDigits : List Char → (List Char × List Char)
  | [] => ([], [])
  | c :: rest =>
    if isDigitCh c then
      let t := takeDigits rest
      (c :: t.1, t.2)
    else ([], c :: rest)

/-- Integer part of the strict number grammar: `0` or a nonzero digit
followed by digits. -/
def scanIntPart : List Char → Option (List Char × List Char)
  | [] => none
  | c :: rest =>
    if c = Char.ofNat 48 then some ([c], rest)
    else if isDigitCh c then
      let t := takeDigits rest
      some (c :: t.1, t.2)
    else none

/-- Optional fraction part. -/
def scanFracPart (l : List Char) : Option (List Char × List Char) :=
  match l with
  | c :: rest =>
    if c = Char.ofNat 46 then
      match takeDigits rest with
      | ([], _) => none
      | (ds, r) => some (c :: ds, r)
    else some ([], l)
  | [] => some ([], [])

/-- Optional exponent part. -/
def scanExpPart (l : List Char) : Option (List Char × List Char) :=
  match l with
  | c :: rest =>
    if c = Char.ofNat 101 ∨ c = Char.ofNat 69 then
      let sr : List Char × List Char :=
        match rest with
        | d :: r2 => if d = Char.ofNat 43 ∨ d = Char.ofNat 45 then ([d], r2) else ([], rest)
        | [] => ([], [])
      match takeDigits sr.2 with
      | ([], _) => none
      | (ds, r) => some (c :: sr.1 ++ ds, r)
    else some ([], l)
  | [] => some ([], [])

/-- Strict JSON number token. -/
def scanJsonNumber (l : List Char) : Option (List Char × List Char) :=
  let nr : List Char × List Char :=
    match l with
    | c :: rest => if c = Char.ofNat 45 then ([c], rest) else ([], l)
    | [] => ([], [])
  match scanIntPart nr.2 with
  | none => none
  | some (ip, l2) =>
    match scanFracPart l2 with
    | none => none
    | some (fp, l3) =>
      match scanExpPart l3 with
      | none => none
      | some (ep, l4) => some (nr.1 ++ ip ++ fp ++ ep, l4)

/-- Parsed JavaScript value of the write-back path. Numbers keep their
token text: no claim depends on numeric value. -/
inductive JsValue where
  | jnull
  | jbool (b : Bool)
  | jnum (raw : List Char)
  | jstr (s : List Char)
  | jarr (elems : List JsValue)
  | jobj (fields : List (List Char × JsValue))

/-- Property assignment on an object: the last value wins, the first
position is kept, as JavaScript property assignment behaves. -/
def setField : List (List Char × JsValue) → List Char → JsValue → List (List Char × JsValue)
  | [], k, v => [(k, v)]
  | (k0, v0) :: rest, k, v =>
    if k0 = k then (k0, v) :: rest else (k0, v0) :: setField rest k v

/-- Object built from member pairs in source order by repeated
assignment. -/
def buildObj (pairs : List (List Char × JsValue)) : List (List Char × JsValue) :=
  pairs.foldl (fun acc p => setField acc p.1 p.2) []

mutual

/-- Strict JSON value parser (ECMA `JSON.parse` grammar); the fuel only
bounds recursion depth and `text.length + 1` always suffices. -/
def jsonParseValue : Nat → List Char → Option (JsValue × List Char)
  | 0, _ => none
  | fuel + 1, l =>
    match skipWsStrict l with
    | [] => none
    | c :: rest =>
      if c = qc then
        match scanJsonStringStrict rest with
        | some (s, r) => some (.jstr s, r)
        | none => none
      else if c = lbr then
        match skipWsStrict rest with
        | [] => none
        | d :: rest2 =>
          if d = rbr then some (.jobj [], rest2)
          else
            match jsonParseMembers fuel (d :: rest2) with
            | some (pairs, r) => some (.jobj (buildObj pairs), r)
            | none => none
      else if c = Char.ofNat 91 then
        match skipWsStrict rest with
        | [] => none
        | d :: rest2 =>
          if d = Char.ofNat 93 then some (.jarr [], rest2)
          else
            match jsonParseElems fuel (d :: rest2) with
            | some (es, r) => some (.jarr es, r)
            | none => none
      else if c = Char.ofNat 116 then
        match rest with
        | r1 :: u1 :: e1 :: rest2 =>
          if r1 = Char.ofNat 114 ∧ u1 = Char.ofNat 117 ∧ e1 = Char.ofNat 101 then
            some (.jbool true, rest2)
          else none
        | _ => none
      else if c = Char.ofNat 102 then
        match rest with
        | a1 :: l1 :: s1 :: e1 :: rest2 =>
          if a1 = Char.ofNat 97 ∧ l1 = Char.ofNat 108 ∧ s1 = Char.ofNat 115 ∧
              e1 = Char.ofNat 101 then
            some (.jbool false, rest2)
          else none
        | _ => none
      else if c = Char.ofNat 110 then
        match rest with
        | u1 :: l1 :: l2 :: rest2 =>
          if u1 = Char.ofNat 117 ∧ l1 = Char.ofNat 108 ∧ l2 = Char.ofNat 108 then
            some (.jnull, rest2)
          else none
        | _ => none
      else
        match scanJsonNumber (c :: rest) with
        | some (tok, r) => some (.jnum tok, r)
        | none => none

/-- Members of a nonempty object, strict: no trailing comma. -/
def jsonParseMembers : Nat → List Char → Option (List (List Char × JsValue) × List Char)
  | 0, _ => none
  | fuel + 1, l =>
    match l with
    | [] => none
    | c :: rest =>
      if c = qc then
        match scanJsonStringStrict rest with
        | some (key, rest2) =>
          match skipWsStrict rest2 with
          | [] => none
          | d :: rest3 =>
            if d = Char.ofNat 58 then
              match jsonParseValue fuel rest3 with
              | some (v, rest4) =>
                match skipWsStrict rest4 with
                | [] => none
                | e :: rest5 =>
                  if e = Char.ofNat 44 then
                    match jsonParseMembers fuel (skipWsStrict rest5) with
                    | some (pairs, r) => some ((key, v) :: pairs, r)
                    | none => none
                  else if e = rbr then some ([(key, v)], rest5)
                  else none
              | none => none
            else none
        | none => none
      else none

/-- Elements of a nonempty array, strict: no trailing comma. -/
def jsonParseElems : Nat → List Char → Option (List JsValue × List Char)
  | 0, _ => none
  | fuel + 1, l =>
    match jsonParseValue fuel l with
    | some (v, rest) =>
      match skipWsStrict rest with
      | [] => none
      | c :: rest2 =>
        if c = Char.ofNat 44 then
          match jsonParseElems fuel rest2 with
          | some (es, r) => some (v :: es, r)
          | none => none
        else if c = Char.ofNat 93 then some ([v], rest2)
        else none
    | none => none

end

/-- Message of a strict parse failure. -/
def syntaxErrorMsg : List Char := "SyntaxError".data

/-- Model of `JSON.parse` as used by `saveCodeToOriginal`: strict grammar,
whole-input. -/
def jsonParse (text : List Char) : Except (List Char) JsValue :=
  match jsonParseValue (text.length + 1) text with
  | some (v, rest) =>
    if (skipWsStrict rest).isEmpty then .ok v else .error syntaxErrorMsg
  | none => .error syntaxErrorMsg

/-- Model of `keyPath.split(".")`: split on every dot, keeping empty
segments, never producing an empty list. -/
def splitDotsGo (acc : List Char) : List Char → List (List Char)
  | [] => [acc.reverse]
  | c :: rest =>
    if c = Char.ofNat 46 then acc.reverse :: splitDotsGo [] rest
    else splitDotsGo (c :: acc) rest

/-- Key list of a dotted path. -/
def splitDots (l : List Char) : List (List Char) := splitDotsGo [] l

/-- First binding of a key. -/
def lookupField : List (List Char × JsValue) → List Char → Option JsValue
  | [], _ => none
  | (k0, v0) :: rest, k => if k0 = k then some v0 else lookupField rest k

/-- Message of a navigation failure. -/
def typeErrorMsg : List Char := "TypeError".data

/-- Model of `updateJsonValueByPath`: navigate the keys, creating `{}` at
missing intermediate keys; reading a property of null throws; assigning a
property on a primitive throws under strict mode (the source is a class
method, hence strict); assignment through an array stores an expando
property that `JSON.stringify` drops, so the array survives unchanged.
Property-lookup subtleties of non-plain keys (such as `length` on
primitives) are not modelled; no claim exercises them. -/
def updatePath : JsValue → List (List Char) → List Char → Except (List Char) JsValue
  | v, [], _ => .ok v
  | v, [k], newValue =>
    match v with
    | .jobj fs => .ok (.jobj (setField fs k (.jstr newValue)))
    | .jarr es => .ok (.jarr es)
    | _ => .error typeErrorMsg
  | v, k :: k2 :: rest, newValue =>
    match v with
    | .jobj fs =>
      match lookupField fs k with
      | some child =>
        match updatePath child (k2 :: rest) newValue with
        | .ok c2 => .ok (.jobj (setField fs k c2))
        | .error e => .error e
      | none =>
        match updatePath (.jobj []) (k2 :: rest) newValue with
        | .ok c2 => .ok (.jobj (setField fs k c2))
        | .error e => .error e
    | .jarr es =>
      match updatePath (.jobj []) (k2 :: rest) newValue with
      | .ok _ => .ok (.jarr es)
      | .error e => .error e
    | _ => .error typeErrorMsg

/-- Hex digit character (lower case). -/
def hexDigitChar (n : Nat) : Char :=
  if n < 10 then Char.ofNat (48 + n) else Char.ofNat (97 + n - 10)

/-- String escaping of `JSON.stringify`. -/
def jsonEscapeChar (c : Char) : List Char :=
  if c = qc then [bsl, qc]
  else if c = bsl then [bsl, bsl]
  else if c = Char.ofNat 10 then [bsl, Char.ofNat 110]
  else if c = crc then [bsl, Char.ofNat 114]
  else if c = Char.ofNat 9 then [bsl, Char.ofNat 116]
  else if c = Char.ofNat 8 then [bsl, Char.ofNat 98]
  else if c = Char.ofNat 12 then [bsl, Char.ofNat 102]
  else if c.toNat < 32 then
    [bsl, Char.ofNat 117, Char.ofNat 48, Char.ofNat 48,
      hexDigitChar (c.toNat / 16), hexDigitChar (c.toNat % 16)]
  else [c]

/-- Escape a whole string. -/
def jsonEscape : List Char → List Char
  | [] => []
  | c :: rest => jsonEscapeChar c ++ jsonEscape rest

/-- Indentation of `JSON.stringify(value, null, 2)`. -/
def indentChars (n : Nat) : List Char := List.replicate n (Char.ofNat 32)

mutual

/-- Model of `JSON.stringify(value, null, 2)` at indentation level
`ind`. -/
def stringifyVal : JsValue → Nat → List Char
  | .jnull, _ => "null".data
  | .jbool true, _ => "true".data
  | .jbool false, _ => "false".data
  | .jnum raw, _ => raw
  | .jstr s, _ => qc :: jsonEscape s ++ [qc]
  | .jobj [], _ => [lbr, rbr]
  | .jobj (f :: fs), ind =>
    lbr :: Char.ofNat 10 :: stringifyMembers (f :: fs) (ind + 2) ++
      Char.ofNat 10 :: indentChars ind ++ [rbr]
  | .jarr [], _ => [Char.ofNat 91, Char.ofNat 93]
  | .jarr (e :: es), ind =>
    Char.ofNat 91 :: Char.ofNat 10 :: stringifyElems (e :: es) (ind + 2) ++
      Char.ofNat 10 :: indentChars ind ++ [Char.ofNat 93]

/-- Members, one per line. -/
def stringifyMembers : List (List Char × JsValue) → Nat → List Char
  | [], _ => []
  | [(k, v)], ind =>
    indentChars ind ++ qc :: jsonEscape k ++ qc :: Char.ofNat 58 :: Char.ofNat 32 ::
      stringifyVal v ind
  | (k, v) :: f :: rest, ind =>
    (indentChars ind ++ qc :: jsonEscape k ++ qc :: Char.ofNat 58 :: Char.ofNat 32 ::
      stringifyVal v ind) ++ Char.ofNat 44 :: Char.ofNat 10 :: stringifyMembers (f :: rest) ind

/-- Elements, one per line. -/
def stringifyElems : List JsValue → Nat → List Char
  | [], _ => []
  | [v], ind => indentChars ind ++ stringifyVal v ind
  | v :: w :: rest, ind =>
    (indentChars ind ++ stringifyVal v ind) ++
      Char.ofNat 44 :: Char.ofNat 10 :: stringifyElems (w :: rest) ind

end

/-- User-visible outcome messages of a save. -/
inductive SaveMessage where
  | saved
  | errorShown (msg : List Char)
deriving DecidableEq, Repr

/-- Outcome of a save: the resulting original-document text, and the
message shown. -/
structure SaveOutcome where
  document : List Char
  message : SaveMessage
deriving DecidableEq, Repr

/-- Model of the try/catch core of `CodeEditorProvider.saveCodeToOriginal`:
re-parse the original document strictly, navigate the key path, replace
the value, re-serialize with 2-space indentation and replace the whole
document; any exception leaves the document untouched and shows a failure
message. -/
def saveCodeToOriginal (originalText keyPath newCode : List Char) : SaveOutcome :=
  match jsonParse originalText with
  | .error e => ⟨originalText, .errorShown e⟩
  | .ok obj =>
    match updatePath obj (splitDots keyPath) newCode with
    | .error e => ⟨originalText, .errorShown e⟩
    | .ok obj2 => ⟨stringifyVal obj2 0, .saved⟩

/-- C8. Write-back atomicity: when the strict re-parse of the original
document fails, a failure message is shown and the document is returned
untouched; likewise when key-path navigation throws after a successful
re-parse — the edit is applied only after both succeed. -/
theorem c8_writeback_atomicity :
    (∀ (originalText keyPath newCode e : List Char),
      jsonParse originalText = .error e →
      saveCodeToOriginal originalText keyPath newCode = ⟨originalText, .errorShown e⟩) ∧
    (∀ (originalText keyPath newCode : List Char) (obj : JsValue) (e : List Char),
      jsonParse originalText = .ok obj →
      updatePath obj (splitDots keyPath) newCode = .error e →
      saveCodeToOriginal originalText keyPath newCode = ⟨originalText, .errorShown e⟩) := by
  constructor
  · intro originalText keyPath newCode e h
    simp [saveCodeToOriginal, h]
  · intro originalText keyPath newCode obj e h1 h2
    simp [saveCodeToOriginal, h1, h2]

/-- C8 witness. Both failure branches at concrete inputs: the unclosed
document fails to re-parse and is left untouched; the well-formed document
whose key path runs through a null value fails navigation and is left
untouched. -/
theorem c8_writeback_atomicity_witness :
    saveCodeToOriginal "\x7b".data "a".data "x".data =
      ⟨"\x7b".data, .errorShown syntaxErrorMsg⟩ ∧
    saveCodeToOriginal "\x7b\"a\": null\x7d".data "a.b".data "x".data =
      ⟨"\x7b\"a\": null\x7d".data, .errorShown typeErrorMsg⟩ := by
  constructor
  · exact c8_writeback_atomicity.1 "\x7b".data "a".data "x".data syntaxErrorMsg rfl
  · exact c8_writeback_atomicity.2 "\x7b\"a\": null\x7d".data "a.b".data "x".data
      (.jobj [("a".data, .jnull)]) typeErrorMsg rfl rfl

/-- Document with a trailing comma: JSONC-only syntax. -/
def c9docTC : String := "\x7b\"a\": \"x\", \x7d"

/-- Document with a line comment: JSONC-only syntax. -/
def c9docCM : String := "\x7b // note\n  \"a\": \"x\" \x7d"

/-- C9. Parse-mode asymmetry between detection and write-back: on a
document with a trailing comma and on a document with a comment, tolerant
detection succeeds (a CodeBlockInfo is returned at an offset inside the
string value), while the strict re-parse of the write-back fails, so every
write-back attempt on these documents — whatever key path and new code —
takes the error branch: the failure message is shown and the document is
unchanged. -/
theorem c9_parse_mode_asymmetry :
    ((detectCodeAtPosition c9docTC.data 7).map (fun i => i.fieldName) = some "a".data) ∧
    (∃ e, jsonParse c9docTC.data = .error e) ∧
    (∀ keyPath newCode : List Char, ∃ e,
      saveCodeToOriginal c9docTC.data keyPath newCode = ⟨c9docTC.data, .errorShown e⟩) ∧
    ((detectCodeAtPosition c9docCM.data 18).map (fun i => i.fieldName) = some "a".data) ∧
    (∃ e, jsonParse c9docCM.data = .error e) ∧
    (∀ keyPath newCode : List Char, ∃ e,
      saveCodeToOriginal c9docCM.data keyPath newCode = ⟨c9docCM.data, .errorShown e⟩) := by
  refine ⟨by decide, ⟨syntaxErrorMsg, by rfl⟩, ?_, by decide, ⟨syntaxErrorMsg, by rfl⟩, ?_⟩
  · intro keyPath newCode
    refine ⟨syntaxErrorMsg, ?_⟩
    show (match jsonParse c9docTC.data with
      | .error e => (⟨c9docTC.data, .errorShown e⟩ : SaveOutcome)
      | .ok obj =>
        match updatePath obj (splitDots keyPath) newCode with
        | .error e => ⟨c9docTC.data, .errorShown e⟩
        | .ok obj2 => ⟨stringifyVal obj2 0, .saved⟩) = ⟨c9docTC.data, .errorShown syntaxErrorMsg⟩
    rw [show jsonParse c9docTC.data = .error syntaxErrorMsg from rfl]
  · intro keyPath newCode
    refine ⟨syntaxErrorMsg, ?_⟩
    show (match jsonParse c9docCM.data with
      | .error e => (⟨c9docCM.data, .errorShown e⟩ : SaveOutcome)
      | .ok obj =>
        match updatePath obj (splitDots keyPath) newCode with
        | .error e => ⟨c9docCM.data, .errorShown e⟩
        | .ok obj2 => ⟨stringifyVal obj2 0, .saved⟩) = ⟨c9docCM.data, .errorShown syntaxErrorMsg⟩
    rw [show jsonParse c9docCM.data = .error syntaxErrorMsg from rfl]

end VJson
